import Mathlib

/-!
# dgo-bencode: a shallow embedding of `dgo_bencode.go`

The Go package is a Bencode codec.  This development models

* Go `int` as `Int` reduced into the 64-bit two's-complement range by `wrapInt`
  after every arithmetic step that can leave the range,
* Go `byte` as a natural number below 256 (byte arithmetic is reduced `% 256`),
* Go `string` as the list of its bytes,
* the value universe `int | string | []any | map[string]any` as `Value`,
* the `bufio.Reader` as the unread input plus the `lastByte` register that
  `UnreadByte` restores,
* every unbounded `for` loop with a fuel counter: `Outcome.outOfFuel` means the
  loop was still running when the counter ran out, so "the call never returns"
  is "`outOfFuel` for every fuel",
* a run-time panic (integer division by zero, `make` with a negative length)
  as `Outcome.panic`.

The sink of the encoders is assumed to accept every write (`Flush` returns
`nil`); an encoder result is the bytes emitted, in order, and the returned
count.  Memory exhaustion is not modelled: `make([]byte, n)` succeeds for
every `n ≥ 0`.
-/

namespace DgoBencode

/-- Two's-complement reduction of an integer into the range of a 64-bit Go `int`. -/
def wrapInt (x : Int) : Int := (x + 2 ^ 63) % 2 ^ 64 - 2 ^ 63

/-- The least Go `int` on a 64-bit host. -/
def minInt : Int := -(2 ^ 63)

/-- The greatest Go `int` on a 64-bit host. -/
def maxInt : Int := 2 ^ 63 - 1

/-- The conversion `byte(x)` of a Go `int`: the low eight bits. -/
def toByte (x : Int) : Nat := (x % 256).toNat

/-- How a call ends: it returns, it panics, or it is still running when the fuel is spent. -/
inductive Outcome (α : Type) where
  | ret (a : α)
  | panic
  | outOfFuel
  deriving Repr, DecidableEq

/-- Sequencing: the continuation runs only after a normal return. -/
def Outcome.bind {α β : Type} (o : Outcome α) (f : α → Outcome β) : Outcome β :=
  match o with
  | .ret a => f a
  | .panic => .panic
  | .outOfFuel => .outOfFuel

/-! ## Decimal primitive (lines 17–81) -/

/-- The first loop of `writeDecimal` (lines 30–36): multiply `divisor` by ten until it
exceeds `val`, then step back once. -/
def writeDecimal.findDivisor : Nat → Int → Int → Outcome Int
  | 0, _, _ => .outOfFuel
  | fuel + 1, divisor, val =>
    if divisor > val then .ret (wrapInt (Int.tdiv divisor 10))
    else writeDecimal.findDivisor fuel (wrapInt (divisor * 10)) val

/-- The second loop of `writeDecimal` (lines 38–49): emit `'0' + byte(val / divisor)`,
stop when `divisor == 1`, otherwise continue with `val % divisor` and `divisor / 10`.
Returns the bytes written and how many. Division by a zero divisor panics. -/
def writeDecimal.digits : Nat → Int → Int → Outcome (List Nat × Int)
  | 0, _, _ => .outOfFuel
  | fuel + 1, divisor, val =>
    if divisor = 0 then .panic
    else
      let num : Nat := toByte (wrapInt (Int.tdiv val divisor))
      let b : Nat := (48 + num) % 256
      if divisor = 1 then .ret ([b], 1)
      else
        (writeDecimal.digits fuel (wrapInt (Int.tdiv divisor 10)) (Int.tmod val divisor)).bind
          fun (bs, n) => .ret (b :: bs, 1 + n)

/-- `writeDecimal(w, val)`: the bytes written to `w` and the returned `length`. -/
def writeDecimal (fuel : Nat) (val : Int) : Outcome (List Nat × Int) :=
  if val = 0 then .ret ([48], 1)
  else
    let sign : List Nat × Int := if val < 0 then ([45], 1) else ([], 0)
    let val := if val < 0 then wrapInt (val * -1) else val
    (writeDecimal.findDivisor fuel 1 val).bind fun divisor =>
    (writeDecimal.digits fuel divisor val).bind fun (bs, n) =>
    .ret (sign.1 ++ bs, sign.2 + n)

/-- `encodeInt(w, val)`: `'i'`, the decimal text, `'e'`; returns the bytes and `wlen`. -/
def encodeInt (fuel : Nat) (val : Int) : Outcome (List Nat × Int) :=
  (writeDecimal fuel val).bind fun (bs, n) => .ret (105 :: bs ++ [101], 1 + n + 1)

/-- `encodeString(w, str)`: the decimal length, `':'`, the raw bytes; returns the bytes
and `wlen`. -/
def encodeString (fuel : Nat) (str : List Nat) : Outcome (List Nat × Int) :=
  let strLength : Int := str.length
  (writeDecimal fuel strLength).bind fun (bs, wlen) =>
  .ret (bs ++ [58] ++ str, wlen + 1 + strLength)

/-! ## Values -/

/-- The values the codec handles: Go `int`, `string`, `[]any` and `map[string]any`.
A map is listed as its key/value pairs in the order a `range` over it yields them; Go
leaves that order unspecified, and a map holds each key once. -/
inductive Value where
  | int (n : Int)
  | str (s : List Nat)
  | list (xs : List Value)
  | dict (m : List (List Nat × Value))

/-- The map index expression `dict[k]`: the value stored under `k`, if any. -/
def mapIndex {α : Type} (k : List Nat) : List (List Nat × α) → Option α
  | [] => none
  | (k', v) :: rest => if k = k' then some v else mapIndex k rest

/-- Go's `<` on strings: byte-wise lexicographic, a proper prefix comes first. -/
def strLess : List Nat → List Nat → Bool
  | _, [] => false
  | [], _ :: _ => true
  | a :: as, b :: bs => decide (a < b) || (decide (a = b) && strLess as bs)

/-- `sort.Strings(keys)`: the keys in ascending order of `strLess`. -/
def sortStrings (keys : List (List Nat)) : List (List Nat) :=
  List.insertionSort (fun a b => strLess b a = false) keys

/-! ## Encoders (lines 83–97, 121–138, 160–191, 239–280, 343–356) -/

/-- The body of `encodeSlice` around its element loop: `'l'`, the elements, `'e'`. -/
def encodeSlice.frame (elems : Outcome (List Nat × Int)) : Outcome (List Nat × Int) :=
  elems.bind fun (bs, n) => .ret (108 :: bs ++ [101], 1 + n + 1)

/-- The loop of `encodeMap` over the sorted keys (lines 252–269): the key as a byte
string, then the value `dict[k]`, whose encoding is looked up in `vals`. -/
def encodeMap.keysLoop (fuel : Nat) (vals : List (List Nat × Outcome (List Nat × Int))) :
    List (List Nat) → Outcome (List Nat × Int)
  | [] => .ret ([], 0)
  | k :: ks =>
    (encodeString fuel k).bind fun (kb, kn) =>
    (match mapIndex k vals with
      | some o => o
      | none => .panic).bind fun (vb, vn) =>
    (encodeMap.keysLoop fuel vals ks).bind fun (bs, n) =>
    .ret (kb ++ vb ++ bs, kn + vn + n)

/-- The body of `encodeMap`: `'d'`, the pairs in sorted key order, `'e'`. -/
def encodeMap.frame (fuel : Nat) (keys : List (List Nat))
    (vals : List (List Nat × Outcome (List Nat × Int))) : Outcome (List Nat × Int) :=
  (encodeMap.keysLoop fuel vals (sortStrings keys)).bind fun (bs, n) =>
  .ret (100 :: bs ++ [101], 1 + n + 1)

mutual
/-- The `switch kindOfElement` of lines 171–180 and 259–268. The recursion follows the
structure of the value: the `reflect.Slice` case is the call `encodeSlice(bw, v)` and
the `reflect.Map` case the call `encodeMap(bw, v)` (`encodeElement_list`,
`encodeElement_dict`). -/
def encodeElement (fuel : Nat) : Value → Outcome (List Nat × Int)
  | .int v => encodeInt fuel v
  | .str v => encodeString fuel v
  | .list v => encodeSlice.frame (encodeSlice.loop fuel v)
  | .dict v => encodeMap.frame fuel (v.map Prod.fst) (encodeMap.values fuel v)
/-- The `range arr` loop of `encodeSlice` (lines 167–181). -/
def encodeSlice.loop (fuel : Nat) : List Value → Outcome (List Nat × Int)
  | [] => .ret ([], 0)
  | element :: rest =>
    (encodeElement fuel element).bind fun (b, n) =>
    (encodeSlice.loop fuel rest).bind fun (bs, m) =>
    .ret (b ++ bs, n + m)
/-- The encoding of the value stored under each key of a map. The source reads
`v := dict[k]` and then encodes `v`; looking the encoding of `v` up under `k` in this
list is the same (`mapIndex_values`). -/
def encodeMap.values (fuel : Nat) : List (List Nat × Value) →
    List (List Nat × Outcome (List Nat × Int))
  | [] => []
  | (k, v) :: rest => (k, encodeElement fuel v) :: encodeMap.values fuel rest
end

/-- `encodeSlice(w, arr)`: the bytes emitted and `wlen`. -/
def encodeSlice (fuel : Nat) (arr : List Value) : Outcome (List Nat × Int) :=
  encodeSlice.frame (encodeSlice.loop fuel arr)

/-- `encodeMap(w, dict)`: the bytes emitted and `wlen`. The keys are collected by the
`range dict` loop of lines 246–249 and sorted. -/
def encodeMap (fuel : Nat) (dict : List (List Nat × Value)) : Outcome (List Nat × Int) :=
  encodeMap.frame fuel (dict.map Prod.fst) (encodeMap.values fuel dict)

/-- `BencodeEncode(w, obj)`: the bytes written to `w`; the returned error is always `nil`. -/
def BencodeEncode (fuel : Nat) (obj : Value) : Outcome (List Nat) :=
  match obj with
  | .int v => (encodeInt fuel v).bind fun (bs, _) => .ret bs
  | .str v => (encodeString fuel v).bind fun (bs, _) => .ret bs
  | .list v => (encodeSlice fuel v).bind fun (bs, _) => .ret bs
  | .dict v => (encodeMap fuel v).bind fun (bs, _) => .ret bs

/-! ## The buffered reader -/

/-- The error values a decoder can return: the two sentinels of the package and the two
that `io.ReadAtLeast` reports on a short read. -/
inductive Error where
  | ErrNum
  | ErrFormat
  | EOF
  | ErrUnexpectedEOF
  deriving Repr, DecidableEq

/-- A `bufio.Reader` over an in-memory source: the bytes not yet read, and the
`lastByte` register (`none` for `-1`). -/
structure Reader where
  buf : List Nat
  lastByte : Option Nat
  deriving Repr, DecidableEq

/-- `bufio.NewReader(strings.NewReader(str))`. -/
def Reader.ofString (str : List Nat) : Reader := ⟨str, none⟩

/-- `ReadByte`: the next byte, or `0` and `io.EOF` at the end of the input, where the
`lastByte` register keeps its value. -/
def Reader.ReadByte (br : Reader) : Nat × Option Error × Reader :=
  match br.buf with
  | [] => (0, some .EOF, br)
  | c :: cs => (c, none, ⟨cs, some c⟩)

/-- `UnreadByte`: puts the byte of the `lastByte` register back and clears the register;
does nothing (and reports an error that every caller drops) when it is clear. -/
def Reader.UnreadByte (br : Reader) : Reader :=
  match br.lastByte with
  | none => br
  | some c => ⟨c :: br.buf, none⟩

/-- `io.ReadAtLeast(br, buf, n)` with `buf = make([]byte, n)`, followed by `string(buf)`:
the zero-initialised buffer receives the bytes that are left, up to `n`. Fewer than `n`
gives `io.ErrUnexpectedEOF`, none at all gives `io.EOF`. -/
def Reader.ReadAtLeast (br : Reader) (n : Nat) : List Nat × Option Error × Reader :=
  let got := br.buf.take n
  let str := got ++ List.replicate (n - got.length) 0
  let err : Option Error :=
    if n ≤ got.length then none
    else if 0 < got.length then some .ErrUnexpectedEOF
    else some .EOF
  (str, err, ⟨br.buf.drop n, match got.getLast? with | some c => some c | none => br.lastByte⟩)

/-- The loop of `readDecimal` (lines 65–75), by recursion on the unread input. `temp` is
the byte in hand. At the end of the input `ReadByte` yields `0`, which is no digit, so
the following iteration is the last. -/
def readDecimal.loop : List Nat → Option Nat → Nat → Int → Int → Int × Int × Reader
  | buf, lastByte, temp, res, length =>
    if temp < 48 ∨ temp > 57 then
      (res, length - 1, Reader.UnreadByte ⟨buf, lastByte⟩)
    else
      let res := wrapInt (res * 10 + ((temp : Int) - 48))
      match buf with
      | [] => (res, length + 1 - 1, Reader.UnreadByte ⟨[], lastByte⟩)
      | c :: cs => readDecimal.loop cs (some c) c res (length + 1)

/-- `readDecimal(r)`: the value read, the returned `length`, and the reader afterwards. -/
def readDecimal (br : Reader) : Int × Int × Reader :=
  let (temp, _, br) := br.ReadByte
  if temp = 45 then
    let (temp, _, br) := br.ReadByte
    let (res, length, br) := readDecimal.loop br.buf br.lastByte temp 0 2
    (wrapInt (-res), length, br)
  else
    readDecimal.loop br.buf br.lastByte temp 0 1

/-! ## Decoders (lines 99–119, 140–158, 193–237, 282–341, 358–408) -/

/-- `decodeString(r)` on a buffered reader: the returned `(str, err)` and the reader
afterwards. `make([]byte, num)` panics for a negative `num`. -/
def decodeString (br : Reader) : Outcome ((List Nat × Option Error) × Reader) :=
  let (num, len, br) := readDecimal br
  if len = 0 then .ret (([], some .ErrNum), br)
  else
    let (b, _, br) := br.ReadByte
    if b ≠ 58 then .ret (([], some .ErrFormat), br)
    else if num < 0 then .panic
    else
      let (str, err, br) := br.ReadAtLeast num.toNat
      .ret ((str, err), br)

/-- `decodeInt(r)` on a buffered reader: the returned `(val, err)` and the reader
afterwards. -/
def decodeInt (br : Reader) : (Int × Option Error) × Reader :=
  let (temp, _, br) := br.ReadByte
  if temp ≠ 105 then ((0, some .ErrFormat), br)
  else
    let (val, _, br) := readDecimal br
    let (temp, err, br) := br.ReadByte
    if temp ≠ 101 then ((val, some .ErrFormat), br)
    else ((val, err), br)

/-- The assignment `dict[key] = val`: replaces the value of a key already present,
adds the pair otherwise. -/
def mapAssign (key : List Nat) (val : Value) :
    List (List Nat × Value) → List (List Nat × Value)
  | [] => [(key, val)]
  | (k, v) :: rest => if key = k then (k, val) :: rest else (k, v) :: mapAssign key val rest

mutual
/-- `decodeSlice(r)` on a buffered reader: `(arr, err)` and the reader afterwards. -/
def decodeSlice : Nat → Reader → Outcome ((List Value × Option Error) × Reader)
  | 0, _ => .outOfFuel
  | fuel + 1, br =>
    let (temp, err, br) := br.ReadByte
    if temp ≠ 108 then .ret (([], some .ErrFormat), br)
    else decodeSlice.loop fuel err br []
/-- The loop of `decodeSlice` (lines 204–234); `err0` is the named result `err`, which
the loop never assigns. The `'d'` branch is empty in the source. -/
def decodeSlice.loop : Nat → Option Error → Reader → List Value →
    Outcome ((List Value × Option Error) × Reader)
  | 0, _, _, _ => .outOfFuel
  | fuel + 1, err0, br, arr =>
    let (temp, _, br) := br.ReadByte
    let br := br.UnreadByte
    if temp = 105 then
      let ((val, err), br) := decodeInt br
      if err ≠ none then .ret ((arr, err), br)
      else decodeSlice.loop fuel err0 br (arr ++ [.int val])
    else if 48 ≤ temp ∧ temp ≤ 57 then
      (decodeString br).bind fun ((str, err), br) =>
      if err ≠ none then .ret ((arr, err), br)
      else decodeSlice.loop fuel err0 br (arr ++ [.str str])
    else if temp = 108 then
      (decodeSlice fuel br).bind fun ((subArr, err), br) =>
      if err ≠ none then .ret ((arr, err), br)
      else decodeSlice.loop fuel err0 br (arr ++ [.list subArr])
    else if temp = 100 then
      decodeSlice.loop fuel err0 br arr
    else if temp = 101 then
      let (_, _, br) := br.ReadByte
      .ret ((arr, err0), br)
    else .ret ((arr, some .ErrFormat), br)
end

mutual
/-- `decodeMap(r)` on a buffered reader: `(dict, err)` and the reader afterwards. -/
def decodeMap : Nat → Reader → Outcome ((List (List Nat × Value) × Option Error) × Reader)
  | 0, _ => .outOfFuel
  | fuel + 1, br =>
    let (temp, err, br) := br.ReadByte
    if temp ≠ 100 then .ret (([], some .ErrFormat), br)
    else decodeMap.loop fuel err br []
/-- The loop of `decodeMap` (lines 294–338); `err0` is the named result `err`, which
the loop never assigns. -/
def decodeMap.loop : Nat → Option Error → Reader → List (List Nat × Value) →
    Outcome ((List (List Nat × Value) × Option Error) × Reader)
  | 0, _, _, _ => .outOfFuel
  | fuel + 1, err0, br, dict =>
    let (temp, _, br) := br.ReadByte
    let br := br.UnreadByte
    if temp = 101 then
      let (_, _, br) := br.ReadByte
      .ret ((dict, err0), br)
    else
      (decodeString br).bind fun ((key, err), br) =>
      if err ≠ none then .ret ((dict, err), br)
      else
        let (temp, _, br) := br.ReadByte
        let br := br.UnreadByte
        if temp = 105 then
          let ((val, err), br) := decodeInt br
          if err ≠ none then .ret ((dict, err), br)
          else decodeMap.loop fuel err0 br (mapAssign key (.int val) dict)
        else if 48 ≤ temp ∧ temp ≤ 57 then
          (decodeString br).bind fun ((str, err), br) =>
          if err ≠ none then .ret ((dict, err), br)
          else decodeMap.loop fuel err0 br (mapAssign key (.str str) dict)
        else if temp = 108 then
          (decodeSlice fuel br).bind fun ((sli, err), br) =>
          if err ≠ none then .ret ((dict, err), br)
          else decodeMap.loop fuel err0 br (mapAssign key (.list sli) dict)
        else if temp = 100 then
          (decodeMap fuel br).bind fun ((subDict, err), br) =>
          if err ≠ none then .ret ((dict, err), br)
          else decodeMap.loop fuel err0 br (mapAssign key (.dict subDict) dict)
        else .ret ((dict, some .ErrFormat), br)
end

/-- The loop of `BencodeDecodeFromReader` (lines 364–401). A failed `ReadByte` leaves the
loop, and the named result `err` is still `nil` then. -/
def BencodeDecodeFromReader.loop : Nat → Reader → List Value →
    Outcome ((List Value × Option Error) × Reader)
  | 0, _, _ => .outOfFuel
  | fuel + 1, br, objs =>
    let (temp, err, br) := br.ReadByte
    if err ≠ none then .ret ((objs, none), br)
    else
      let br := br.UnreadByte
      if temp = 105 then
        let ((num, err), br) := decodeInt br
        if err ≠ none then .ret ((objs, err), br)
        else BencodeDecodeFromReader.loop fuel br (objs ++ [.int num])
      else if 48 ≤ temp ∧ temp ≤ 57 then
        (decodeString br).bind fun ((str, err), br) =>
        if err ≠ none then .ret ((objs, err), br)
        else BencodeDecodeFromReader.loop fuel br (objs ++ [.str str])
      else if temp = 108 then
        (decodeSlice fuel br).bind fun ((sli, err), br) =>
        if err ≠ none then .ret ((objs, err), br)
        else BencodeDecodeFromReader.loop fuel br (objs ++ [.list sli])
      else if temp = 100 then
        (decodeMap fuel br).bind fun ((dict, err), br) =>
        if err ≠ none then .ret ((objs, err), br)
        else BencodeDecodeFromReader.loop fuel br (objs ++ [.dict dict])
      else .ret ((objs, some .ErrFormat), br)

/-- `BencodeDecodeFromReader(r)` on a buffered reader: the returned `(objs, err)`. -/
def BencodeDecodeFromReader (fuel : Nat) (br : Reader) : Outcome (List Value × Option Error) :=
  (BencodeDecodeFromReader.loop fuel br []).bind fun (res, _) => .ret res

/-- `BencodeDecodeFromString(str)`. -/
def BencodeDecodeFromString (fuel : Nat) (str : List Nat) :
    Outcome (List Value × Option Error) :=
  BencodeDecodeFromReader fuel (Reader.ofString str)

/-! ## Reference text of a decimal number -/

/-- Canonical decimal text of a natural number, as ASCII bytes: `"0"` for zero, otherwise
the digits from the most significant one, which is not zero. -/
def decimalText (n : Nat) : List Nat :=
  if n = 0 then [48] else (Nat.digits 10 n).reverse.map fun d => 48 + d

/-- The `m + 1` decimal digits of `v` from the most significant one, zero-padded. -/
def beDigits : Nat → Nat → List Nat
  | 0, v => [v]
  | m + 1, v => v / 10 ^ (m + 1) :: beDigits m (v % 10 ^ (m + 1))

/-! ## Reference reading of a decimal number -/

/-- Whether a byte is an ASCII digit `'0'`..`'9'`. -/
def isDigit (c : Nat) : Bool := decide (48 ≤ c) && decide (c ≤ 57)

/-- The number denoted by a string of ASCII digits, most significant digit first
(zero for the empty string). -/
def digitsValue (ds : List Nat) : Nat := ds.foldl (fun a d => a * 10 + (d - 48)) 0

/-- The sign a number text starts with: `"-"` or nothing. -/
def signOf (s : List Nat) : List Nat := if s.head? = some 45 then [45] else []

/-- The maximal run of digits that follows the optional sign. -/
def digitRun (s : List Nat) : List Nat := (s.drop (signOf s).length).takeWhile isDigit

/-- What follows the optional sign and the digit run. -/
def afterRun (s : List Nat) : List Nat := (s.drop (signOf s).length).dropWhile isDigit

/-- The Go `int` that `readDecimal` makes of a sign and a digit run: the digits are
accumulated with 64-bit wrap-around, then the result is negated if there is a sign. -/
def runValue (s : List Nat) : Int :=
  if signOf s = [45] then wrapInt (-(wrapInt (digitsValue (digitRun s))))
  else wrapInt (digitsValue (digitRun s))

/-! ## Wire format of the specification, and the supported values -/

/-- The text of an integer in the wire format: a `'-'` for a negative number, then the
canonical decimal text of the absolute value. -/
def intText (n : Int) : List Nat :=
  if n < 0 then 45 :: decimalText (-n).toNat else decimalText n.toNat

/-- The pairs of a map in the order of `keys`: for each key its pair, if the map has one. -/
def mapReorder {α : Type} (keys : List (List Nat)) (m : List (List Nat × α)) :
    List (List Nat × α) :=
  keys.filterMap fun k => (mapIndex k m).map fun v => (k, v)

/-- The wire format of a sequence of dictionary entries: each key as a byte string,
followed by the bytes of its value. -/
def wireEntries : List (List Nat × List Nat) → List Nat
  | [] => []
  | (k, b) :: rest => (decimalText k.length ++ 58 :: k) ++ b ++ wireEntries rest

mutual
/-- The wire format of a value as the specification gives it: `i<text>e` for an integer,
`<length>:<bytes>` for a byte string, `l<items>e` for a list, `d<pairs>e` for a
dictionary with the pairs in ascending key order. -/
def Value.wire : Value → List Nat
  | .int n => 105 :: intText n ++ [101]
  | .str s => decimalText s.length ++ 58 :: s
  | .list xs => 108 :: Value.wireList xs ++ [101]
  | .dict m =>
    100 :: wireEntries (mapReorder (sortStrings (m.map Prod.fst)) (Value.wireValues m)) ++ [101]
/-- The wire formats of the elements of a list, one after the other. -/
def Value.wireList : List Value → List Nat
  | [] => []
  | x :: xs => Value.wire x ++ Value.wireList xs
/-- The wire format of the value stored under each key of a map. -/
def Value.wireValues : List (List Nat × Value) → List (List Nat × List Nat)
  | [] => []
  | (k, v) :: rest => (k, Value.wire v) :: Value.wireValues rest
end

mutual
/-- The same value with every dictionary listed in ascending key order. The listing order
of a `Value.dict` stands for the unspecified iteration order of a Go map, so a value and
its canonical listing are the same Go value (`mapIndex_canonDict`, `sameAs_canon`). -/
def Value.canon : Value → Value
  | .int n => .int n
  | .str s => .str s
  | .list xs => .list (Value.canonList xs)
  | .dict m => .dict (mapReorder (sortStrings (m.map Prod.fst)) (Value.canonValues m))
/-- The canonical listing of each element of a list. -/
def Value.canonList : List Value → List Value
  | [] => []
  | x :: xs => Value.canon x :: Value.canonList xs
/-- The canonical listing of the value stored under each key of a map. -/
def Value.canonValues : List (List Nat × Value) → List (List Nat × Value)
  | [] => []
  | (k, v) :: rest => (k, Value.canon v) :: Value.canonValues rest
end

/-- Whether a value is a dictionary. -/
def Value.isDict : Value → Bool
  | .dict _ => true
  | _ => false

mutual
/-- The values on which encoder and decoder agree: every integer strictly between
`-10^18` and `10^18`, every string and key shorter than `10^18` bytes, no dictionary as a
direct element of a list; the keys of a map are pairwise distinct, as in every Go map. -/
def Value.supported : Value → Bool
  | .int n => decide (-(10 ^ 18) < n) && decide (n < 10 ^ 18)
  | .str s => decide (s.length < 10 ^ 18)
  | .list xs => Value.supportedList xs
  | .dict m => decide ((m.map Prod.fst).Nodup) && Value.supportedValues m
/-- Every element of a list is supported and none is a dictionary. -/
def Value.supportedList : List Value → Bool
  | [] => true
  | x :: xs => !Value.isDict x && Value.supported x && Value.supportedList xs
/-- Every key of a map is shorter than `10^18` bytes and every value is supported. -/
def Value.supportedValues : List (List Nat × Value) → Bool
  | [] => true
  | (k, v) :: rest =>
    decide (k.length < 10 ^ 18) && Value.supported v && Value.supportedValues rest
end

/-- The dispatch on the peeked byte that the loops of `decodeMap` (lines 308–337) and of
`BencodeDecodeFromReader` (lines 372–400) spell out, as one function: the value decoded
by the codec that the first byte selects, with the error of that codec. The loop of
`decodeSlice` is the same dispatch without the `'d'` case (`decodeMap_loop_eq`,
`topLoop_eq`, `decodeSlice_loop_eq`). -/
def decodeOne (fuel : Nat) (br : Reader) : Outcome ((Value × Option Error) × Reader) :=
  let (temp, _, br) := br.ReadByte
  let br := br.UnreadByte
  if temp = 105 then
    let ((val, err), br) := decodeInt br
    .ret ((.int val, err), br)
  else if 48 ≤ temp ∧ temp ≤ 57 then
    (decodeString br).bind fun ((str, err), br) => .ret ((.str str, err), br)
  else if temp = 108 then
    (decodeSlice fuel br).bind fun ((sli, err), br) => .ret ((.list sli, err), br)
  else if temp = 100 then
    (decodeMap fuel br).bind fun ((dict, err), br) => .ret ((.dict dict, err), br)
  else .ret ((.int 0, some .ErrFormat), br)

mutual
/-- Equality of two values as Go values: integers, strings and lists are compared as they
are, dictionaries by key/value content, whatever the order they are listed in. For maps
with distinct keys, the same number of keys and every key of the first bound to an equal
value in the second is the same content. -/
def Value.sameAs : Value → Value → Bool
  | .int a, w =>
    match w with
    | .int b => decide (a = b)
    | _ => false
  | .str a, w =>
    match w with
    | .str b => decide (a = b)
    | _ => false
  | .list xs, w =>
    match w with
    | .list ys => Value.sameList xs ys
    | _ => false
  | .dict m, w =>
    match w with
    | .dict m' => decide (m.length = m'.length) && Value.sameValues m m'
    | _ => false
/-- Two lists have the same length and equal elements at each position. -/
def Value.sameList : List Value → List Value → Bool
  | [], ys => ys.isEmpty
  | x :: xs, ys =>
    match ys with
    | y :: ys' => Value.sameAs x y && Value.sameList xs ys'
    | [] => false
/-- Every key of the first map is bound in the second map, to an equal value. -/
def Value.sameValues : List (List Nat × Value) → List (List Nat × Value) → Bool
  | [], _ => true
  | (k, v) :: rest, m' =>
    (match mapIndex k m' with
      | some w => Value.sameAs v w
      | none => false) && Value.sameValues rest m'
end

/-! # Theorems -/

/-! ### 64-bit arithmetic and the decimal writer -/

theorem wrapInt_le_maxInt (x : Int) : wrapInt x ≤ maxInt := by
  unfold wrapInt maxInt
  omega

theorem wrapInt_of_range {x : Int} (hlo : -(2 ^ 63) ≤ x) (hhi : x < 2 ^ 63) : wrapInt x = x := by
  unfold wrapInt
  omega

theorem findDivisor_maxInt (fuel : Nat) (divisor : Int) (h : divisor ≤ maxInt) :
    writeDecimal.findDivisor fuel divisor maxInt = .outOfFuel := by
  induction fuel generalizing divisor with
  | zero => rfl
  | succ n ih =>
    rw [writeDecimal.findDivisor, if_neg (by omega)]
    exact ih _ (wrapInt_le_maxInt _)

/-- Claim C4, evaluated at the two extreme values of a 64-bit `int`: on the greatest one
the first loop of `writeDecimal` never leaves (the divisor can never exceed it, and
wraps around), so `encodeInt` does not return for any fuel; on the least one the negation
wraps to itself, the divisor becomes zero and the division panics. Neither call emits
`'i'`, the decimal text and `'e'`. -/
theorem encodeInt_extremes :
    (∀ fuel, encodeInt fuel maxInt = .outOfFuel) ∧
    (∀ fuel, encodeInt (fuel + 1) minInt = .panic) := by
  constructor
  · intro fuel
    have h : writeDecimal.findDivisor fuel 1 maxInt = .outOfFuel :=
      findDivisor_maxInt fuel 1 (by unfold maxInt; omega)
    simp [encodeInt, writeDecimal, maxInt, Outcome.bind] at h ⊢
    simp [h]
  · intro fuel
    have h10 : Int.tdiv 1 10 = 0 := by decide
    simp [encodeInt, writeDecimal, minInt, wrapInt, writeDecimal.findDivisor,
      writeDecimal.digits, Outcome.bind, h10]


theorem beDigits_length (m v : Nat) : (beDigits m v).length = m + 1 := by
  induction m generalizing v with
  | zero => rfl
  | succ k ih => simp [beDigits, ih]

theorem beDigits_lt (m v : Nat) (hv : v < 10 ^ (m + 1)) : ∀ d ∈ beDigits m v, d < 10 := by
  induction m generalizing v with
  | zero => intro d hd; simp [beDigits] at hd; omega
  | succ k ih =>
    intro d hd
    simp only [beDigits, List.mem_cons] at hd
    rcases hd with rfl | hd
    · rw [Nat.div_lt_iff_lt_mul (by positivity)]
      calc v < 10 ^ (k + 1 + 1) := hv
        _ = 10 * 10 ^ (k + 1) := by ring
    · exact ih _ (Nat.mod_lt _ (by positivity)) d hd

theorem beDigits_ofDigits (m v : Nat) : Nat.ofDigits 10 (beDigits m v).reverse = v := by
  induction m generalizing v with
  | zero => simp [beDigits, Nat.ofDigits_singleton]
  | succ k ih =>
    simp only [beDigits, List.reverse_cons, Nat.ofDigits_append, ih, List.length_reverse,
      beDigits_length, Nat.ofDigits_singleton]
    exact Nat.mod_add_div v (10 ^ (k + 1))

theorem beDigits_head (m v : Nat) : (beDigits m v).head? = some (v / 10 ^ m) := by
  cases m <;> simp [beDigits]

theorem digits_eq_beDigits (m v : Nat) (hlo : 10 ^ m ≤ v) (hhi : v < 10 ^ (m + 1)) :
    Nat.digits 10 v = (beDigits m v).reverse := by
  have h := Nat.digits_ofDigits 10 (by norm_num) (beDigits m v).reverse
    (fun l hl => beDigits_lt m v hhi l (List.mem_reverse.mp hl))
    (fun hne => by
      have hh := beDigits_head m v
      rw [List.getLast_reverse]
      intro h0
      have : (beDigits m v).head? = some 0 := by
        rw [← h0]; exact List.head?_eq_head _
      rw [hh] at this
      have hq : v / 10 ^ m = 0 := by simpa using this
      have hpos : 0 < v / 10 ^ m := Nat.div_pos hlo (by positivity)
      omega)
  rw [beDigits_ofDigits] at h
  exact h

theorem pow_le_of_le_17 (m : Nat) (hm : m ≤ 17) : 10 ^ m ≤ 10 ^ 17 :=
  Nat.pow_le_pow_right (by norm_num) hm

theorem toByte_natCast (q : Nat) (hq : q < 256) : toByte (q : Int) = q := by
  unfold toByte
  rw [show ((q : Int) % 256) = ((q : Nat) : Int) by omega]
  simp

theorem wrapInt_natCast (a : Nat) (h : a < 2 ^ 63) : wrapInt (a : Int) = (a : Int) :=
  wrapInt_of_range (by omega) (by omega)

theorem tdiv_natCast (a b : Nat) : Int.tdiv (a : Int) (b : Int) = ((a / b : Nat) : Int) :=
  (Int.ofNat_tdiv a b).symm

theorem tmod_natCast (a b : Nat) : Int.tmod (a : Int) (b : Int) = ((a % b : Nat) : Int) :=
  (Int.ofNat_tmod a b).symm

theorem tdiv_natCast_ten (a : Nat) : Int.tdiv (a : Int) 10 = ((a / 10 : Nat) : Int) :=
  tdiv_natCast a 10

/-- One iteration of the digit loop on naturals, when more digits follow. -/
theorem digits_step (fuel v a : Nat) (ha : 10 ≤ a) (ha17 : a ≤ 10 ^ 17) (hv : v < 10 * a) :
    writeDecimal.digits (fuel + 1) (a : Int) (v : Int) =
      (writeDecimal.digits fuel ((a / 10 : Nat) : Int) ((v % a : Nat) : Int)).bind
        fun r => .ret ((48 + v / a) :: r.1, 1 + r.2) := by
  have hq : v / a < 10 := by
    rw [Nat.div_lt_iff_lt_mul (by omega)]; omega
  have ha0 : ¬ ((a : Int) = 0) := by omega
  have ha1 : ¬ ((a : Int) = 1) := by omega
  rw [writeDecimal.digits, if_neg ha0, if_neg ha1]
  have e1 : wrapInt (Int.tdiv (a : Int) 10) = ((a / 10 : Nat) : Int) := by
    rw [tdiv_natCast_ten]
    exact wrapInt_natCast _ (by omega)
  have e2 : toByte (wrapInt (Int.tdiv (v : Int) (a : Int))) = v / a := by
    rw [tdiv_natCast, wrapInt_natCast _ (by omega), toByte_natCast _ (by omega)]
  have e3 : (48 + v / a) % 256 = 48 + v / a := Nat.mod_eq_of_lt (by omega)
  rw [e1, e2, tmod_natCast, e3]

/-- The last iteration of the digit loop. -/
theorem digits_last (fuel v : Nat) (hv : v < 10) :
    writeDecimal.digits (fuel + 1) 1 (v : Int) = .ret ([48 + v], 1) := by
  have e2 : toByte (wrapInt (Int.tdiv (v : Int) 1)) = v := by
    rw [Int.tdiv_one, wrapInt_natCast _ (by omega), toByte_natCast _ (by omega)]
  have e3 : (48 + v) % 256 = 48 + v := by omega
  rw [writeDecimal.digits, if_neg (by omega), if_pos rfl, e2, e3]

theorem digits_loop_eq (m : Nat) : ∀ (v fuel : Nat), m ≤ 17 → v < 10 ^ (m + 1) → m + 1 ≤ fuel →
    writeDecimal.digits fuel ((10 ^ m : Nat) : Int) (v : Int)
      = .ret ((beDigits m v).map (fun d => 48 + d), ((m + 1 : Nat) : Int)) := by
  induction m with
  | zero =>
    intro v fuel _ hv hf
    obtain ⟨f, rfl⟩ : ∃ f, fuel = f + 1 := ⟨fuel - 1, by omega⟩
    have hv10 : v < 10 := by simpa using hv
    have := digits_last f v hv10
    simpa [beDigits] using this
  | succ k ih =>
    intro v fuel hk hv hf
    obtain ⟨f, rfl⟩ : ∃ f, fuel = f + 1 := ⟨fuel - 1, by omega⟩
    have hp17 : 10 ^ (k + 1) ≤ 10 ^ 17 := pow_le_of_le_17 _ hk
    have hpk : 10 ^ (k + 1) = 10 * 10 ^ k := by ring
    have hpos : 0 < 10 ^ k := by positivity
    have hvk : v < 10 * 10 ^ (k + 1) := by
      calc v < 10 ^ (k + 1 + 1) := hv
        _ = 10 * 10 ^ (k + 1) := by ring
    have hdiv : 10 ^ (k + 1) / 10 = 10 ^ k := by omega
    have hrec := ih (v % 10 ^ (k + 1)) f (by omega) (Nat.mod_lt _ (by omega)) (by omega)
    rw [digits_step f v (10 ^ (k + 1)) (by omega) hp17 hvk, hdiv, hrec]
    simp only [Outcome.bind, beDigits, List.map_cons]
    congr 2
    push_cast
    ring

theorem findDivisor_eq (m v : Nat) (hm : m ≤ 17) (hlo : 10 ^ m ≤ v) (hhi : v < 10 ^ (m + 1)) :
    ∀ (d j fuel : Nat), j + d = m + 1 → d + 1 ≤ fuel →
      writeDecimal.findDivisor fuel ((10 ^ j : Nat) : Int) (v : Int)
        = .ret ((10 ^ m : Nat) : Int) := by
  intro d
  induction d with
  | zero =>
    intro j fuel hj hf
    obtain ⟨f, rfl⟩ : ∃ f, fuel = f + 1 := ⟨fuel - 1, by omega⟩
    have hjm : j = m + 1 := by omega
    subst hjm
    have hgt : ((10 ^ (m + 1) : Nat) : Int) > (v : Int) := by exact_mod_cast hhi
    rw [writeDecimal.findDivisor, if_pos hgt, tdiv_natCast_ten]
    have hp : 10 ^ (m + 1) = 10 * 10 ^ m := by ring
    have h17 := pow_le_of_le_17 m hm
    have hdiv : 10 ^ (m + 1) / 10 = 10 ^ m := by omega
    rw [hdiv, wrapInt_natCast _ (by omega)]
  | succ e ih =>
    intro j fuel hj hf
    obtain ⟨f, rfl⟩ : ∃ f, fuel = f + 1 := ⟨fuel - 1, by omega⟩
    have hjm : j ≤ m := by omega
    have hle : 10 ^ j ≤ 10 ^ m := Nat.pow_le_pow_right (by norm_num) hjm
    have h17 := pow_le_of_le_17 m hm
    have hngt : ¬ (((10 ^ j : Nat) : Int) > (v : Int)) := by
      have : 10 ^ j ≤ v := le_trans hle hlo
      have : ((10 ^ j : Nat) : Int) ≤ (v : Int) := by exact_mod_cast this
      exact not_lt.mpr this
    rw [writeDecimal.findDivisor, if_neg hngt]
    have hw : wrapInt (((10 ^ j : Nat) : Int) * 10) = ((10 ^ (j + 1) : Nat) : Int) := by
      have hp : 10 ^ (j + 1) = 10 ^ j * 10 := by ring
      rw [hp]
      generalize 10 ^ j = b at hle ⊢
      rw [show ((b : Int) * 10) = ((b * 10 : Nat) : Int) by push_cast; ring]
      exact wrapInt_natCast _ (by omega)
    rw [hw]
    exact ih (j + 1) f (by omega) (by omega)

theorem decimalText_eq_beDigits (m n : Nat) (hlo : 10 ^ m ≤ n) (hhi : n < 10 ^ (m + 1)) :
    decimalText n = (beDigits m n).map (fun d => 48 + d) := by
  have hn : n ≠ 0 := by
    have : 0 < 10 ^ m := by positivity
    omega
  simp [decimalText, hn, digits_eq_beDigits m n hlo hhi]

theorem exists_digit_count (n : Nat) (hn : 0 < n) (hlt : n < 10 ^ 18) :
    ∃ m, m ≤ 17 ∧ 10 ^ m ≤ n ∧ n < 10 ^ (m + 1) := by
  refine ⟨Nat.log 10 n, ?_, Nat.pow_log_le_self 10 (by omega), Nat.lt_pow_succ_log_self (by norm_num) n⟩
  have h1 : 10 ^ Nat.log 10 n ≤ n := Nat.pow_log_le_self 10 (by omega)
  have h2 : 10 ^ Nat.log 10 n < 10 ^ 18 := lt_of_le_of_lt h1 hlt
  have := (Nat.pow_lt_pow_iff_right (by norm_num : 1 < 10)).mp h2
  omega

/-- On `0 ≤ n < 10^18` the two loops of `writeDecimal` produce the canonical text. -/
theorem writeDecimal_natCast (fuel n : Nat) (hn : n < 10 ^ 18) (hf : 19 ≤ fuel) :
    writeDecimal fuel (n : Int) = .ret (decimalText n, ((decimalText n).length : Int)) := by
  by_cases h0 : n = 0
  · subst h0
    simp [writeDecimal, decimalText]
  · obtain ⟨m, hm, hlo, hhi⟩ := exists_digit_count n (by omega) hn
    have hfd := findDivisor_eq m n hm hlo hhi (m + 1) 0 fuel (by omega) (by omega)
    have hdg := digits_loop_eq m n fuel hm hhi (by omega)
    have hn0 : ¬ ((n : Int) = 0) := by omega
    have hnn : ¬ ((n : Int) < 0) := by omega
    have h1 : ((10 ^ 0 : Nat) : Int) = 1 := by simp
    rw [h1] at hfd
    rw [writeDecimal, if_neg hn0]
    simp only [if_neg hnn, hfd, Outcome.bind, hdg, decimalText_eq_beDigits m n hlo hhi,
      List.nil_append, List.length_map, beDigits_length]
    simp

/-- On `-10^18 < n < 0` `writeDecimal` writes `'-'` and the canonical text of `|n|`. -/
theorem writeDecimal_neg (fuel n : Nat) (hpos : 0 < n) (hn : n < 10 ^ 18) (hf : 19 ≤ fuel) :
    writeDecimal fuel (-(n : Int))
      = .ret (45 :: decimalText n, ((45 :: decimalText n).length : Int)) := by
  obtain ⟨m, hm, hlo, hhi⟩ := exists_digit_count n hpos hn
  have hfd := findDivisor_eq m n hm hlo hhi (m + 1) 0 fuel (by omega) (by omega)
  have hdg := digits_loop_eq m n fuel hm hhi (by omega)
  have hn0 : ¬ (-(n : Int) = 0) := by omega
  have hnn : (-(n : Int) < 0) := by omega
  have hw : wrapInt (-(n : Int) * -1) = (n : Int) := by
    rw [show -(n : Int) * -1 = (n : Int) by ring]
    exact wrapInt_natCast _ (by omega)
  have h1 : ((10 ^ 0 : Nat) : Int) = 1 := by simp
  rw [h1] at hfd
  rw [writeDecimal, if_neg hn0]
  simp only [if_pos hnn, hw, hfd, Outcome.bind, hdg, decimalText_eq_beDigits m n hlo hhi,
    List.length_map, beDigits_length, List.length_cons, List.singleton_append]
  congr 2
  push_cast
  ring

/-! ### String order and sorting -/

theorem strLess_irrefl (a : List Nat) : strLess a a = false := by
  induction a with
  | nil => rfl
  | cons x xs ih => simp [strLess, ih]

theorem strLess_asymm : ∀ (a b : List Nat), strLess a b = true → strLess b a = false
  | _, [], h => by simp [strLess] at h
  | [], _ :: _, _ => by simp [strLess]
  | x :: xs, y :: ys, h => by
    simp only [strLess, Bool.or_eq_true, Bool.and_eq_true, decide_eq_true_eq] at h
    simp only [strLess, Bool.or_eq_false_iff, Bool.and_eq_false_iff, decide_eq_false_iff_not]
    rcases h with h | ⟨h1, h2⟩
    · exact ⟨by omega, Or.inl (by omega)⟩
    · exact ⟨by omega, Or.inr (strLess_asymm xs ys h2)⟩

theorem strLess_antisymm : ∀ (a b : List Nat), strLess b a = false → strLess a b = false → a = b
  | [], [], _, _ => rfl
  | [], _ :: _, _, h => by simp [strLess] at h
  | _ :: _, [], h, _ => by simp [strLess] at h
  | x :: xs, y :: ys, h1, h2 => by
    simp only [strLess, Bool.or_eq_false_iff, Bool.and_eq_false_iff, decide_eq_false_iff_not] at h1 h2
    have hxy : x = y := by omega
    subst hxy
    have := strLess_antisymm xs ys (by simpa using h1.2) (by simpa using h2.2)
    rw [this]

theorem strLess_trans : ∀ (a b c : List Nat),
    strLess b a = false → strLess c b = false → strLess c a = false
  | [], _, _, _, _ => by simp [strLess]
  | _ :: _, [], _, h, _ => by simp [strLess] at h
  | _ :: _, _ :: _, [], _, h => by simp [strLess] at h
  | x :: xs, y :: ys, z :: zs, h1, h2 => by
    simp only [strLess, Bool.or_eq_false_iff, Bool.and_eq_false_iff, decide_eq_false_iff_not]
      at h1 h2 ⊢
    refine ⟨by omega, ?_⟩
    by_cases hzx : z = x
    · right
      subst hzx
      have hzy : z = y := by omega
      subst hzy
      exact strLess_trans xs ys zs (by simpa using h1.2) (by simpa using h2.2)
    · exact Or.inl hzx

theorem strLe_total (a b : List Nat) : strLess b a = false ∨ strLess a b = false := by
  cases h : strLess b a
  · exact Or.inl rfl
  · exact Or.inr (strLess_asymm b a h)

/-- `strLess` is the lexicographic order on byte lists. -/
theorem strLess_iff_lex : ∀ (a b : List Nat), strLess a b = true ↔ List.Lex (· < ·) a b
  | _, [] => by simp [strLess]
  | [], _ :: _ => by simp [strLess, List.Lex.nil]
  | x :: xs, y :: ys => by
    simp only [strLess, Bool.or_eq_true, Bool.and_eq_true, decide_eq_true_eq,
      strLess_iff_lex xs ys]
    constructor
    · rintro (h | ⟨rfl, h⟩)
      · exact List.Lex.rel h
      · exact List.Lex.cons h
    · intro h
      cases h with
      | rel h => exact Or.inl h
      | cons h => exact Or.inr ⟨rfl, h⟩

theorem sortStrings_sorted (keys : List (List Nat)) :
    (sortStrings keys).Sorted (fun a b => strLess b a = false) :=
  @List.sorted_insertionSort _ (fun a b => strLess b a = false) _
    ⟨strLe_total⟩ ⟨fun a b c hab hbc => strLess_trans a b c hab hbc⟩ keys

theorem sortStrings_perm (keys : List (List Nat)) : (sortStrings keys).Perm keys :=
  List.perm_insertionSort _ keys

theorem sortStrings_eq_of_perm {k1 k2 : List (List Nat)} (h : k1.Perm k2) :
    sortStrings k1 = sortStrings k2 :=
  @List.eq_of_perm_of_sorted _ (fun a b => strLess b a = false)
    ⟨fun a b hab hba => strLess_antisymm a b hab hba⟩ _ _
    (((sortStrings_perm k1).trans h).trans (sortStrings_perm k2).symm)
    (sortStrings_sorted k1) (sortStrings_sorted k2)

theorem sortStrings_of_ascending {keys : List (List Nat)}
    (h : keys.Pairwise (fun a b => strLess a b = true)) : sortStrings keys = keys :=
  List.Sorted.insertionSort_eq (h.imp fun {a b} hab => strLess_asymm a b hab)

/-! ### Map lookup -/

theorem mapIndex_of_mem {α : Type} : ∀ (l : List (List Nat × α)) (k : List Nat) (v : α),
    (l.map Prod.fst).Nodup → (k, v) ∈ l → mapIndex k l = some v
  | [], _, _, _, h => by simp at h
  | (k', v') :: rest, k, v, hnd, h => by
    simp only [List.map_cons, List.nodup_cons] at hnd
    simp only [List.mem_cons, Prod.mk.injEq] at h
    rcases h with ⟨rfl, rfl⟩ | h
    · simp [mapIndex]
    · have hne : k ≠ k' := by
        rintro rfl
        exact hnd.1 (List.mem_map.mpr ⟨(k, v), h, rfl⟩)
      simp only [mapIndex, if_neg hne]
      exact mapIndex_of_mem rest k v hnd.2 h

theorem mapIndex_eq_none {α : Type} : ∀ (l : List (List Nat × α)) (k : List Nat),
    k ∉ l.map Prod.fst → mapIndex k l = none
  | [], _, _ => rfl
  | (k', v') :: rest, k, h => by
    simp only [List.map_cons, List.mem_cons, not_or] at h
    simp only [mapIndex, if_neg h.1]
    exact mapIndex_eq_none rest k h.2

theorem mapIndex_perm {α : Type} {l1 l2 : List (List Nat × α)} (hnd : (l1.map Prod.fst).Nodup)
    (hp : l1.Perm l2) (k : List Nat) : mapIndex k l1 = mapIndex k l2 := by
  have hnd2 : (l2.map Prod.fst).Nodup := (hp.map Prod.fst).nodup_iff.mp hnd
  by_cases hk : k ∈ l1.map Prod.fst
  · obtain ⟨⟨k', v⟩, hmem, rfl⟩ := List.mem_map.mp hk
    rw [mapIndex_of_mem l1 k' v hnd hmem, mapIndex_of_mem l2 k' v hnd2 (hp.subset hmem)]
  · have hk2 : k ∉ l2.map Prod.fst := fun h => hk ((hp.map Prod.fst).symm.subset h)
    rw [mapIndex_eq_none l1 k hk, mapIndex_eq_none l2 k hk2]

/-! ### Encoders -/

theorem encodeMap_values_eq_map (fuel : Nat) : ∀ (m : List (List Nat × Value)),
    encodeMap.values fuel m = m.map (fun p => (p.1, encodeElement fuel p.2))
  | [] => by simp [encodeMap.values]
  | (k, v) :: rest => by
    simp [encodeMap.values, encodeMap_values_eq_map fuel rest]

theorem encodeMap_values_keys (fuel : Nat) (m : List (List Nat × Value)) :
    (encodeMap.values fuel m).map Prod.fst = m.map Prod.fst := by
  rw [encodeMap_values_eq_map]
  simp [Function.comp_def]

/-- The source reads `v := dict[k]` and encodes `v`; the model looks the encoding up. -/
theorem mapIndex_values (fuel : Nat) (k : List Nat) : ∀ (m : List (List Nat × Value)),
    mapIndex k (encodeMap.values fuel m) = (mapIndex k m).map (encodeElement fuel)
  | [] => by simp [encodeMap.values, mapIndex]
  | (k', v) :: rest => by
    by_cases h : k = k'
    · simp [encodeMap.values, mapIndex, h]
    · simp [encodeMap.values, mapIndex, h, mapIndex_values fuel k rest]

theorem keysLoop_congr (fuel : Nat) (vals1 vals2 : List (List Nat × Outcome (List Nat × Int))) :
    ∀ (ks : List (List Nat)), (∀ k ∈ ks, mapIndex k vals1 = mapIndex k vals2) →
      encodeMap.keysLoop fuel vals1 ks = encodeMap.keysLoop fuel vals2 ks
  | [], _ => rfl
  | k :: ks, h => by
    simp only [encodeMap.keysLoop]
    rw [h k (List.mem_cons_self _ _),
      keysLoop_congr fuel vals1 vals2 ks (fun k' hk' => h k' (List.mem_cons_of_mem _ hk'))]

theorem encodeMap_perm_aux (fuel : Nat) (l1 l2 : List (List Nat × Value))
    (hnd : (l1.map Prod.fst).Nodup) (hp : l1.Perm l2) :
    encodeMap fuel l1 = encodeMap fuel l2 := by
  unfold encodeMap encodeMap.frame
  rw [sortStrings_eq_of_perm (hp.map Prod.fst)]
  rw [keysLoop_congr fuel (encodeMap.values fuel l1) (encodeMap.values fuel l2)]
  intro k _
  apply mapIndex_perm
  · rw [encodeMap_values_keys]; exact hnd
  · rw [encodeMap_values_eq_map, encodeMap_values_eq_map]
    exact hp.map _

/-- The `reflect.Slice` case of the element switch calls `encodeSlice`. -/
theorem encodeElement_list (fuel : Nat) (v : List Value) :
    encodeElement fuel (.list v) = encodeSlice fuel v := by
  simp [encodeElement, encodeSlice]

/-- The `reflect.Map` case of the element switch calls `encodeMap`. -/
theorem encodeElement_dict (fuel : Nat) (v : List (List Nat × Value)) :
    encodeElement fuel (.dict v) = encodeMap fuel v := by
  simp [encodeElement, encodeMap]

theorem Outcome.bind_eq_ret {α β : Type} {o : Outcome α} {f : α → Outcome β} {b : β}
    (h : o.bind f = .ret b) : ∃ a, o = .ret a ∧ f a = .ret b := by
  cases o with
  | ret a => exact ⟨a, rfl, h⟩
  | panic => simp [Outcome.bind] at h
  | outOfFuel => simp [Outcome.bind] at h

theorem digits_count : ∀ (fuel : Nat) (d v : Int) (bs : List Nat) (n : Int),
    writeDecimal.digits fuel d v = .ret (bs, n) → n = bs.length
  | 0, _, _, _, _, h => by simp [writeDecimal.digits] at h
  | fuel + 1, d, v, bs, n, h => by
    rw [writeDecimal.digits] at h
    split at h
    · simp at h
    · split at h
      · simp only [Outcome.ret.injEq, Prod.mk.injEq] at h
        obtain ⟨rfl, rfl⟩ := h
        simp
      · obtain ⟨⟨bs', n'⟩, hrec, hret⟩ := Outcome.bind_eq_ret h
        simp only [Outcome.ret.injEq, Prod.mk.injEq] at hret
        obtain ⟨rfl, rfl⟩ := hret
        have := digits_count fuel _ _ bs' n' hrec
        simp [this]
        ring

theorem writeDecimal_count (fuel : Nat) (val : Int) (bs : List Nat) (n : Int)
    (h : writeDecimal fuel val = .ret (bs, n)) : n = bs.length := by
  unfold writeDecimal at h
  split at h
  · simp only [Outcome.ret.injEq, Prod.mk.injEq] at h
    obtain ⟨rfl, rfl⟩ := h
    simp
  · obtain ⟨d, _, h2⟩ := Outcome.bind_eq_ret h
    obtain ⟨⟨bs', n'⟩, hdig, hret⟩ := Outcome.bind_eq_ret h2
    have hc := digits_count fuel _ _ bs' n' hdig
    simp only [Outcome.ret.injEq, Prod.mk.injEq] at hret
    obtain ⟨rfl, rfl⟩ := hret
    split <;> simp [hc]
    ring

theorem encodeInt_count (fuel : Nat) (val : Int) (bs : List Nat) (n : Int)
    (h : encodeInt fuel val = .ret (bs, n)) : n = bs.length := by
  unfold encodeInt at h
  obtain ⟨⟨bs', n'⟩, hw, hret⟩ := Outcome.bind_eq_ret h
  have hc := writeDecimal_count fuel val bs' n' hw
  simp only [Outcome.ret.injEq, Prod.mk.injEq] at hret
  obtain ⟨rfl, rfl⟩ := hret
  simp [hc]
  ring

theorem encodeString_count (fuel : Nat) (str : List Nat) (bs : List Nat) (n : Int)
    (h : encodeString fuel str = .ret (bs, n)) : n = bs.length := by
  unfold encodeString at h
  obtain ⟨⟨bs', n'⟩, hw, hret⟩ := Outcome.bind_eq_ret h
  have hc := writeDecimal_count fuel _ bs' n' hw
  simp only [Outcome.ret.injEq, Prod.mk.injEq] at hret
  obtain ⟨rfl, rfl⟩ := hret
  simp only [List.length_append, List.length_cons, List.length_nil, hc]
  push_cast
  ring

theorem keysLoop_count (fuel : Nat) (vals : List (List Nat × Outcome (List Nat × Int)))
    (hvals : ∀ k o, mapIndex k vals = some o → ∀ b n, o = .ret (b, n) → n = b.length) :
    ∀ (ks : List (List Nat)) (bs : List Nat) (n : Int),
      encodeMap.keysLoop fuel vals ks = .ret (bs, n) → n = bs.length
  | [], bs, n, h => by
    simp only [encodeMap.keysLoop, Outcome.ret.injEq, Prod.mk.injEq] at h
    obtain ⟨rfl, rfl⟩ := h
    simp
  | k :: ks, bs, n, h => by
    rw [encodeMap.keysLoop] at h
    obtain ⟨⟨kb, kn⟩, hk, h2⟩ := Outcome.bind_eq_ret h
    obtain ⟨⟨vb, vn⟩, hv, h3⟩ := Outcome.bind_eq_ret h2
    obtain ⟨⟨rb, rn⟩, hr, hret⟩ := Outcome.bind_eq_ret h3
    have c1 := encodeString_count fuel k kb kn hk
    have c3 := keysLoop_count fuel vals hvals ks rb rn hr
    have c2 : vn = vb.length := by
      cases hi : mapIndex k vals with
      | none => rw [hi] at hv; simp at hv
      | some o =>
        rw [hi] at hv
        exact hvals k o hi vb vn hv
    simp only [Outcome.ret.injEq, Prod.mk.injEq] at hret
    obtain ⟨rfl, rfl⟩ := hret
    simp only [List.length_append, c1, c2, c3]
    push_cast
    ring

theorem frame_count_slice (elems : Outcome (List Nat × Int))
    (helems : ∀ b n, elems = .ret (b, n) → n = b.length) (bs : List Nat) (n : Int)
    (h : encodeSlice.frame elems = .ret (bs, n)) : n = bs.length := by
  unfold encodeSlice.frame at h
  obtain ⟨⟨b', n'⟩, he, hret⟩ := Outcome.bind_eq_ret h
  have := helems b' n' he
  simp only [Outcome.ret.injEq, Prod.mk.injEq] at hret
  obtain ⟨rfl, rfl⟩ := hret
  simp [this]
  ring

theorem frame_count_map (fuel : Nat) (keys : List (List Nat))
    (vals : List (List Nat × Outcome (List Nat × Int)))
    (hvals : ∀ k o, mapIndex k vals = some o → ∀ b n, o = .ret (b, n) → n = b.length)
    (bs : List Nat) (n : Int)
    (h : encodeMap.frame fuel keys vals = .ret (bs, n)) : n = bs.length := by
  unfold encodeMap.frame at h
  obtain ⟨⟨b', n'⟩, he, hret⟩ := Outcome.bind_eq_ret h
  have := keysLoop_count fuel vals hvals _ b' n' he
  simp only [Outcome.ret.injEq, Prod.mk.injEq] at hret
  obtain ⟨rfl, rfl⟩ := hret
  simp [this]
  ring

mutual
theorem encodeElement_count (fuel : Nat) : ∀ (v : Value) (b : List Nat) (n : Int),
    encodeElement fuel v = .ret (b, n) → n = b.length
  | .int v, b, n, h => by
    rw [encodeElement] at h
    exact encodeInt_count fuel v b n h
  | .str v, b, n, h => by
    rw [encodeElement] at h
    exact encodeString_count fuel v b n h
  | .list v, b, n, h => by
    rw [encodeElement] at h
    exact frame_count_slice _ (encodeSlice_loop_count fuel v) b n h
  | .dict v, b, n, h => by
    rw [encodeElement] at h
    exact frame_count_map fuel _ _ (encodeMap_values_count fuel v) b n h
theorem encodeSlice_loop_count (fuel : Nat) : ∀ (xs : List Value) (b : List Nat) (n : Int),
    encodeSlice.loop fuel xs = .ret (b, n) → n = b.length
  | [], b, n, h => by
    simp only [encodeSlice.loop, Outcome.ret.injEq, Prod.mk.injEq] at h
    obtain ⟨rfl, rfl⟩ := h
    simp
  | x :: xs, b, n, h => by
    rw [encodeSlice.loop] at h
    obtain ⟨⟨b1, n1⟩, h1, h2⟩ := Outcome.bind_eq_ret h
    obtain ⟨⟨b2, n2⟩, h3, hret⟩ := Outcome.bind_eq_ret h2
    have c1 := encodeElement_count fuel x b1 n1 h1
    have c2 := encodeSlice_loop_count fuel xs b2 n2 h3
    simp only [Outcome.ret.injEq, Prod.mk.injEq] at hret
    obtain ⟨rfl, rfl⟩ := hret
    simp [c1, c2]
theorem encodeMap_values_count (fuel : Nat) : ∀ (m : List (List Nat × Value)) (k : List Nat)
    (o : Outcome (List Nat × Int)), mapIndex k (encodeMap.values fuel m) = some o →
    ∀ (b : List Nat) (n : Int), o = .ret (b, n) → n = b.length
  | [], k, o, h => by simp [encodeMap.values, mapIndex] at h
  | (k', v) :: rest, k, o, h => by
    rw [encodeMap.values, mapIndex] at h
    split at h
    · intro b n ho
      simp only [Option.some.injEq] at h
      rw [← h] at ho
      exact encodeElement_count fuel v b n ho
    · exact encodeMap_values_count fuel rest k o h
end

theorem BencodeEncode_eq_encodeElement (fuel : Nat) (v : Value) :
    BencodeEncode fuel v = (encodeElement fuel v).bind fun r => .ret r.1 := by
  cases v <;> simp [BencodeEncode, encodeElement, encodeSlice, encodeMap]

theorem encodeElement_of_BencodeEncode {fuel : Nat} {v : Value} {b : List Nat}
    (h : BencodeEncode fuel v = .ret b) : ∃ n, encodeElement fuel v = .ret (b, n) := by
  rw [BencodeEncode_eq_encodeElement] at h
  cases he : encodeElement fuel v with
  | ret r =>
    obtain ⟨b', n⟩ := r
    rw [he] at h
    simp only [Outcome.bind, Outcome.ret.injEq] at h
    exact ⟨n, by rw [h]⟩
  | panic => rw [he] at h; simp [Outcome.bind] at h
  | outOfFuel => rw [he] at h; simp [Outcome.bind] at h

theorem encodeSlice_loop_of_elements (fuel : Nat) {xs : List Value} {bs : List (List Nat)}
    (h : List.Forall₂ (fun x b => BencodeEncode fuel x = .ret b) xs bs) :
    ∃ n, encodeSlice.loop fuel xs = .ret (bs.flatten, n) := by
  induction h with
  | nil => exact ⟨0, by simp [encodeSlice.loop]⟩
  | cons hx _ ih =>
    obtain ⟨n, hn⟩ := encodeElement_of_BencodeEncode hx
    obtain ⟨m, hm⟩ := ih
    exact ⟨n + m, by simp [encodeSlice.loop, hn, hm, Outcome.bind]⟩

/-- Claim C6, list wire format: when the dispatcher `BencodeEncode` turns the elements
`x1 … xn` into the byte strings `b1 … bn`, `encodeSlice` returns and has emitted exactly
`'l'`, then `b1 … bn` in the order of the elements, then `'e'`; its result is the number
of bytes emitted. -/
theorem encodeSlice_wire (fuel : Nat) (xs : List Value) (bs : List (List Nat))
    (h : List.Forall₂ (fun x b => BencodeEncode fuel x = .ret b) xs bs) :
    encodeSlice fuel xs
      = .ret (108 :: bs.flatten ++ [101], ((108 :: bs.flatten ++ [101]).length : Int)) := by
  obtain ⟨n, hn⟩ := encodeSlice_loop_of_elements fuel h
  have hc := encodeSlice_loop_count fuel xs _ n hn
  simp only [encodeSlice, encodeSlice.frame, hn, Outcome.bind, hc, List.cons_append,
    List.length_cons, List.length_append, List.length_nil]
  congr 2
  push_cast
  ring

/-- The list `[1, "a"]` encodes to `"li1e1:ae"`. -/
theorem encodeSlice_wire_witness :
    List.Forall₂ (fun x b => BencodeEncode 2 x = .ret b)
      [.int 1, .str [97]] [[105, 49, 101], [49, 58, 97]] ∧
    encodeSlice 2 [.int 1, .str [97]] = .ret ([108, 105, 49, 101, 49, 58, 97, 101], 8) :=
  ⟨.cons (by decide) (.cons (by decide) .nil),
   encodeSlice_wire 2 [.int 1, .str [97]] [[105, 49, 101], [49, 58, 97]]
    (.cons (by decide) (.cons (by decide) .nil))⟩

theorem keysLoop_of_pairs (fuel : Nat) (vals : List (List Nat × Outcome (List Nat × Int)))
    {suf : List (List Nat × Value)} {bs : List (List Nat)}
    (hidx : ∀ p ∈ suf, mapIndex p.1 vals = some (encodeElement fuel p.2))
    (h : List.Forall₂ (fun p b => ∃ kb kn vb, encodeString fuel p.1 = .ret (kb, kn) ∧
      BencodeEncode fuel p.2 = .ret vb ∧ b = kb ++ vb) suf bs) :
    ∃ n, encodeMap.keysLoop fuel vals (suf.map Prod.fst) = .ret (bs.flatten, n) := by
  induction h with
  | nil => exact ⟨0, by simp [encodeMap.keysLoop]⟩
  | @cons p b suf' bs' hp _ ih =>
    obtain ⟨kb, kn, vb, hk, hv, rfl⟩ := hp
    obtain ⟨vn, hvn⟩ := encodeElement_of_BencodeEncode hv
    obtain ⟨m, hm⟩ := ih (fun q hq => hidx q (List.mem_cons_of_mem _ hq))
    have hi := hidx p (List.mem_cons_self _ _)
    exact ⟨kn + vn + m, by
      simp [encodeMap.keysLoop, hk, hi, hvn, hm, Outcome.bind]⟩

/-- Claim C7, dictionary wire format: let `sorted` list the pairs of the map `dict` with
strictly ascending keys (byte-wise order `strLess`). When each key encodes as a byte
string to `kb` and its value encodes through the dispatcher to `vb`, `encodeMap` returns
and has emitted exactly `'d'`, then `kb ++ vb` for each pair in ascending key order, then
`'e'`, whatever the iteration order of `dict`; its result is the number of bytes emitted. -/
theorem encodeMap_wire (fuel : Nat) (dict sorted : List (List Nat × Value))
    (hperm : sorted.Perm dict)
    (hasc : sorted.Pairwise (fun p q => strLess p.1 q.1 = true))
    (bs : List (List Nat))
    (henc : List.Forall₂ (fun p b => ∃ kb kn vb, encodeString fuel p.1 = .ret (kb, kn) ∧
      BencodeEncode fuel p.2 = .ret vb ∧ b = kb ++ vb) sorted bs) :
    encodeMap fuel dict
      = .ret (100 :: bs.flatten ++ [101], ((100 :: bs.flatten ++ [101]).length : Int)) := by
  have hkeys : (sorted.map Prod.fst).Pairwise (fun a b => strLess a b = true) :=
    List.pairwise_map.mpr hasc
  have hnd : (sorted.map Prod.fst).Nodup :=
    hkeys.imp fun {a b} hab heq => by
      rw [heq, strLess_irrefl] at hab
      exact Bool.false_ne_true hab
  rw [← encodeMap_perm_aux fuel sorted dict hnd hperm]
  have hidx : ∀ p ∈ sorted,
      mapIndex p.1 (encodeMap.values fuel sorted) = some (encodeElement fuel p.2) := by
    intro p hp
    rw [mapIndex_values, mapIndex_of_mem sorted p.1 p.2 hnd hp]
    rfl
  obtain ⟨n, hn⟩ := keysLoop_of_pairs fuel (encodeMap.values fuel sorted) hidx henc
  have hc := keysLoop_count fuel _ (encodeMap_values_count fuel sorted) _ _ n hn
  unfold encodeMap encodeMap.frame
  rw [sortStrings_of_ascending hkeys, hn]
  simp only [Outcome.bind, hc, List.cons_append, List.length_cons, List.length_append,
    List.length_nil]
  congr 2
  push_cast
  ring

/-- The map `{"b": 2, "a": 1}` encodes to `"d1:ai1e1:bi2ee"`. -/
theorem encodeMap_wire_witness :
    [([97], Value.int 1), ([98], Value.int 2)].Perm [([98], Value.int 2), ([97], Value.int 1)] ∧
    [([97], Value.int 1), ([98], Value.int 2)].Pairwise (fun p q => strLess p.1 q.1 = true) ∧
    encodeMap 2 [([98], Value.int 2), ([97], Value.int 1)]
      = .ret ([100, 49, 58, 97, 105, 49, 101, 49, 58, 98, 105, 50, 101, 101], 14) :=
  ⟨List.Perm.swap _ _ _, by simp [strLess],
   encodeMap_wire 2 [([98], Value.int 2), ([97], Value.int 1)]
    [([97], Value.int 1), ([98], Value.int 2)] (List.Perm.swap _ _ _)
    (by simp [strLess]) [[49, 58, 97, 105, 49, 101], [49, 58, 98, 105, 50, 101]]
    (.cons ⟨[49, 58, 97], 3, [105, 49, 101], by decide, by decide, rfl⟩
      (.cons ⟨[49, 58, 98], 3, [105, 50, 101], by decide, by decide, rfl⟩ .nil))⟩

/-- Claim C3, canonical dictionary ordering: two listings of a map that are permutations
of each other, with pairwise distinct keys, give the same result of `encodeMap`: the same
bytes and the same count (or the same failure to return). -/
theorem encodeMap_perm (fuel : Nat) (l1 l2 : List (List Nat × Value))
    (hnd : (l1.map Prod.fst).Nodup) (hp : l1.Perm l2) :
    encodeMap fuel l1 = encodeMap fuel l2 :=
  encodeMap_perm_aux fuel l1 l2 hnd hp

/-- The map `{"a": 1, "b": 2}` listed in both orders. -/
theorem encodeMap_perm_witness :
    ([([98], Value.int 2), ([97], Value.int 1)].map Prod.fst).Nodup ∧
    [([98], Value.int 2), ([97], Value.int 1)].Perm [([97], Value.int 1), ([98], Value.int 2)] ∧
    encodeMap 2 [([98], Value.int 2), ([97], Value.int 1)]
      = encodeMap 2 [([97], Value.int 1), ([98], Value.int 2)] :=
  ⟨by decide, List.Perm.swap _ _ _,
   encodeMap_perm 2 _ _ (by decide) (List.Perm.swap _ _ _)⟩

/-- Claim C5, byte-string wire format: for a string `s` of length `L` (below `10^18`, as
the length of every string a 64-bit process can hold is), `encodeString` returns, has
emitted exactly the canonical decimal text of `L`, then `':'`, then the bytes of `s`
unchanged, and its result is the number of bytes emitted. Nineteen units of fuel are
enough for the loops of `writeDecimal`. -/
theorem encodeString_wire (fuel : Nat) (s : List Nat) (hlen : s.length < 10 ^ 18) :
    encodeString (fuel + 19) s
      = .ret (decimalText s.length ++ 58 :: s,
          ((decimalText s.length ++ 58 :: s).length : Int)) := by
  unfold encodeString
  simp only [writeDecimal_natCast (fuel + 19) s.length hlen (by omega), Outcome.bind]
  congr 2
  · simp
  · simp only [List.length_append, List.length_cons]
    push_cast
    ring

/-- The string `"spam"`. -/
theorem encodeString_wire_witness :
    [115, 112, 97, 109].length < 10 ^ 18 ∧
    encodeString (0 + 19) [115, 112, 97, 109] = .ret ([52, 58, 115, 112, 97, 109], 6) :=
  ⟨by norm_num,
   (encodeString_wire 0 [115, 112, 97, 109] (by norm_num)).trans (by norm_num [decimalText])⟩

/-- Claim C10, malformed tag: when the next byte `c` at the top level is none of `'i'`,
a digit, `'l'` or `'d'`, the loop of `BencodeDecodeFromReader` returns at once with
`ErrFormat`, with the values decoded before unchanged and `c` still unread, so nothing
after it is decoded; in particular `BencodeDecodeFromString` on an input that starts
with such a byte returns no value and `ErrFormat`. -/
theorem malformed_tag (fuel c : Nat) (rest : List Nat) (lb : Option Nat) (objs : List Value)
    (hi : c ≠ 105) (hdig : ¬ (48 ≤ c ∧ c ≤ 57)) (hl : c ≠ 108) (hd : c ≠ 100) :
    BencodeDecodeFromReader.loop (fuel + 1) ⟨c :: rest, lb⟩ objs
        = .ret ((objs, some .ErrFormat), ⟨c :: rest, none⟩) ∧
    BencodeDecodeFromString (fuel + 1) (c :: rest) = .ret ([], some .ErrFormat) := by
  constructor
  · simp [BencodeDecodeFromReader.loop, Reader.ReadByte, Reader.UnreadByte, hi, hdig, hl, hd]
  · simp [BencodeDecodeFromString, BencodeDecodeFromReader, BencodeDecodeFromReader.loop,
      Reader.ofString, Reader.ReadByte, Reader.UnreadByte, hi, hdig, hl, hd, Outcome.bind]

/-- The byte `'x'` met after one decoded value, and at the start of an input. -/
theorem malformed_tag_witness :
    (120 ≠ 105 ∧ ¬ (48 ≤ 120 ∧ 120 ≤ 57) ∧ 120 ≠ 108 ∧ 120 ≠ 100) ∧
    (BencodeDecodeFromReader.loop (0 + 1) ⟨120 :: [105, 49, 101], some 101⟩ [.int 7]
        = .ret (([.int 7], some .ErrFormat), ⟨120 :: [105, 49, 101], none⟩) ∧
     BencodeDecodeFromString (0 + 1) (120 :: [105, 49, 101]) = .ret ([], some .ErrFormat)) :=
  ⟨by decide, malformed_tag 0 120 [105, 49, 101] (some 101) [.int 7]
    (by decide) (by decide) (by decide) (by decide)⟩

/-! ### Decoding a list that holds a dictionary -/

theorem decodeSlice_loop_dict_tag (fuel : Nat) (err0 : Option Error) (rest : List Nat)
    (lb : Option Nat) (arr : List Value) :
    decodeSlice.loop fuel err0 ⟨100 :: rest, lb⟩ arr = .outOfFuel := by
  induction fuel generalizing lb with
  | zero => simp [decodeSlice.loop]
  | succ n ih =>
    rw [decodeSlice.loop]
    simp [Reader.ReadByte, Reader.UnreadByte, ih]

theorem decodeSlice_dict_element (fuel : Nat) (rest : List Nat) (lb : Option Nat) :
    decodeSlice fuel ⟨108 :: 100 :: rest, lb⟩ = .outOfFuel := by
  cases fuel with
  | zero => rfl
  | succ n => simp [decodeSlice, Reader.ReadByte, decodeSlice_loop_dict_tag]

theorem topLoop_list_of_dict (fuel : Nat) (rest : List Nat) (lb : Option Nat)
    (objs : List Value) :
    BencodeDecodeFromReader.loop fuel ⟨108 :: 100 :: rest, lb⟩ objs = .outOfFuel := by
  cases fuel with
  | zero => rfl
  | succ n =>
    simp [BencodeDecodeFromReader.loop, Reader.ReadByte, Reader.UnreadByte,
      decodeSlice_dict_element, Outcome.bind]

/-- Claim C1, evaluated at the value `[{}]` (a list holding an empty dictionary):
`BencodeEncode` writes `"ldee"`, and `BencodeDecodeFromReader` on `"ldee"` does not
return for any fuel, because the `'d'` branch of the loop of `decodeSlice` consumes
nothing. The round trip does not yield `[[{}]]`. -/
theorem roundtrip_list_of_dict_never_returns :
    (∀ fuel, BencodeEncode fuel (.list [.dict []]) = .ret [108, 100, 101, 101]) ∧
    (∀ fuel, BencodeDecodeFromReader fuel (Reader.ofString [108, 100, 101, 101])
      = .outOfFuel) := by
  refine ⟨fun fuel => rfl, fun fuel => ?_⟩
  simp [BencodeDecodeFromReader, Reader.ofString, topLoop_list_of_dict, Outcome.bind]

/-- Claim C2, evaluated at the stream of the two values `1` and `[{}]`: they encode to
`"i1e"` and `"ldee"`, and `BencodeDecodeFromString` on the concatenation `"i1eldee"`
does not return for any fuel, so it does not yield `[1, [{}]]`. -/
theorem stream_with_list_of_dict_never_returns :
    (∀ fuel, BencodeEncode (fuel + 2) (.int 1) = .ret [105, 49, 101]) ∧
    (∀ fuel, BencodeEncode fuel (.list [.dict []]) = .ret [108, 100, 101, 101]) ∧
    (∀ fuel, BencodeDecodeFromString fuel ([105, 49, 101] ++ [108, 100, 101, 101])
      = .outOfFuel) := by
  refine ⟨fun fuel => rfl, fun fuel => rfl, fun fuel => ?_⟩
  cases fuel with
  | zero => rfl
  | succ n =>
    have h : decodeInt ⟨[105, 49, 101, 108, 100, 101, 101], none⟩
        = ((1, none), ⟨[108, 100, 101, 101], some 101⟩) := by decide
    simp [BencodeDecodeFromString, BencodeDecodeFromReader, BencodeDecodeFromReader.loop,
      Reader.ofString, Reader.ReadByte, Reader.UnreadByte, h, topLoop_list_of_dict,
      Outcome.bind]

/-- Claim C8, evaluated at the value `[{}]` followed by the bad input `"x"`: the value
encodes to `"ldee"`, `"x"` alone fails with `ErrFormat`, and `BencodeDecodeFromReader`
on `"ldeex"` does not return for any fuel, so it returns neither the error nor the
value decoded before the failure point. -/
theorem salvage_list_of_dict_never_returns :
    (∀ fuel, BencodeEncode fuel (.list [.dict []]) = .ret [108, 100, 101, 101]) ∧
    (∀ fuel, BencodeDecodeFromString (fuel + 1) [120] = .ret ([], some .ErrFormat)) ∧
    (∀ fuel, BencodeDecodeFromReader fuel (Reader.ofString ([108, 100, 101, 101] ++ [120]))
      = .outOfFuel) := by
  refine ⟨fun fuel => rfl, fun fuel => rfl, fun fuel => ?_⟩
  simp [BencodeDecodeFromReader, Reader.ofString, topLoop_list_of_dict, Outcome.bind]

theorem readDecimal_wraps :
    readDecimal ⟨[49, 56, 52, 52, 54, 55, 52, 52, 48, 55, 51, 55, 48, 57, 53, 53, 49, 54, 49, 57,
      58, 97, 98, 99], none⟩ = (3, 20, ⟨[58, 97, 98, 99], none⟩) := by
  simp [readDecimal, readDecimal.loop, Reader.ReadByte, Reader.UnreadByte, wrapInt]

theorem readDecimal_wraps_negative :
    readDecimal ⟨[57, 50, 50, 51, 51, 55, 50, 48, 51, 54, 56, 53, 52, 55, 55, 53, 56, 48, 56,
      58, 97, 98, 99], none⟩ = (-9223372036854775808, 19, ⟨[58, 97, 98, 99], none⟩) := by
  simp [readDecimal, readDecimal.loop, Reader.ReadByte, Reader.UnreadByte, wrapInt]

/-- Claim C9, evaluated at two inputs whose declared length leaves the 64-bit range:
`"18446744073709551619:abc"` declares `2^64 + 3` bytes and supplies three, and the decoder
returns the string `"abc"` with no error, because `readDecimal` wraps the length to `3`;
`"9223372036854775808:abc"` declares `2^63` bytes, the length wraps to a negative number
and `make` panics. Neither call returns a truncated-input error. -/
theorem truncation_length_overflow :
    (∀ fuel, BencodeDecodeFromString (fuel + 2)
      [49, 56, 52, 52, 54, 55, 52, 52, 48, 55, 51, 55, 48, 57, 53, 53, 49, 54, 49, 57,
        58, 97, 98, 99] = .ret ([.str [97, 98, 99]], none)) ∧
    (∀ fuel, BencodeDecodeFromString (fuel + 1)
      [57, 50, 50, 51, 51, 55, 50, 48, 51, 54, 56, 53, 52, 55, 55, 53, 56, 48, 56,
        58, 97, 98, 99] = .panic) := by
  constructor
  · intro fuel
    simp [BencodeDecodeFromString, BencodeDecodeFromReader, BencodeDecodeFromReader.loop,
      Reader.ofString, Reader.ReadByte, Reader.UnreadByte, decodeString, readDecimal_wraps,
      Reader.ReadAtLeast, Outcome.bind]
  · intro fuel
    simp [BencodeDecodeFromString, BencodeDecodeFromReader, BencodeDecodeFromReader.loop,
      Reader.ofString, Reader.ReadByte, Reader.UnreadByte, decodeString,
      readDecimal_wraps_negative, Outcome.bind]

/-! ### Reading a decimal number -/

theorem isDigit_iff (c : Nat) : isDigit c = true ↔ 48 ≤ c ∧ c ≤ 57 := by
  simp [isDigit]

theorem isDigit_false_iff (c : Nat) : isDigit c = false ↔ (c < 48 ∨ c > 57) := by
  rw [← Bool.not_eq_true, isDigit_iff]
  omega

theorem wrapInt_step (a : Int) (d : Int) :
    wrapInt (wrapInt a * 10 + d) = wrapInt (a * 10 + d) := by
  unfold wrapInt
  omega

theorem wrapInt_wrapInt (a : Int) : wrapInt (wrapInt a) = wrapInt a := by
  unfold wrapInt
  omega

/-- The digit loop of `readDecimal` when a byte that is no digit follows the run. -/
theorem readDecimal_loop_run : ∀ (ds : List Nat), (∀ d ∈ ds, isDigit d = true) →
    ∀ (temp a : Nat) (lb : Option Nat) (len : Int) (c : Nat) (rest : List Nat),
    isDigit temp = true → isDigit c = false →
    readDecimal.loop (ds ++ c :: rest) lb temp (wrapInt a) len
      = (wrapInt ((ds.foldl (fun a d => a * 10 + (d - 48)) (a * 10 + (temp - 48)) : Nat)),
          len + ds.length, ⟨c :: rest, none⟩)
  | [], _, temp, a, lb, len, c, rest, ht, hc => by
    have ht' := (isDigit_iff temp).mp ht
    have hc' := (isDigit_false_iff c).mp hc
    rw [readDecimal.loop, if_neg (by omega)]
    simp only [List.nil_append]
    rw [readDecimal.loop, if_pos hc']
    simp only [Reader.UnreadByte, List.foldl_nil, List.length_nil]
    rw [wrapInt_step]
    congr 2
    · push_cast
      omega
    · simp
  | d :: ds, hds, temp, a, lb, len, c, rest, ht, hc => by
    have ht' := (isDigit_iff temp).mp ht
    rw [readDecimal.loop, if_neg (by omega)]
    simp only [List.cons_append]
    have e : wrapInt (wrapInt (a : Int) * 10 + ((temp : Int) - 48))
        = wrapInt (((a * 10 + (temp - 48) : Nat) : Int)) := by
      rw [wrapInt_step]
      congr 1
      push_cast
      omega
    rw [e, readDecimal_loop_run ds (fun x hx => hds x (List.mem_cons_of_mem _ hx)) d _ (some d)
      (len + 1) c rest (hds d (List.mem_cons_self _ _)) hc]
    simp only [List.foldl_cons, List.length_cons]
    rw [show len + 1 + (ds.length : Int) = len + ((ds.length + 1 : Nat) : Int) by
      push_cast; ring]

/-- The digit loop of `readDecimal` when the input ends with the run: the last digit is
put back by `UnreadByte`. -/
theorem readDecimal_loop_eof : ∀ (ds : List Nat), (∀ d ∈ ds, isDigit d = true) →
    ∀ (temp a : Nat) (len : Int), isDigit temp = true →
    readDecimal.loop ds (some temp) temp (wrapInt a) len
      = (wrapInt ((ds.foldl (fun a d => a * 10 + (d - 48)) (a * 10 + (temp - 48)) : Nat)),
          len + ds.length, ⟨[(temp :: ds).getLast (List.cons_ne_nil _ _)], none⟩)
  | [], _, temp, a, len, ht => by
    have ht' := (isDigit_iff temp).mp ht
    rw [readDecimal.loop, if_neg (by omega)]
    simp only [Reader.UnreadByte, List.foldl_nil, List.length_nil, List.getLast_singleton]
    rw [wrapInt_step]
    congr 2
    · push_cast
      omega
    · simp
  | d :: ds, hds, temp, a, len, ht => by
    have ht' := (isDigit_iff temp).mp ht
    rw [readDecimal.loop, if_neg (by omega)]
    have e : wrapInt (wrapInt (a : Int) * 10 + ((temp : Int) - 48))
        = wrapInt (((a * 10 + (temp - 48) : Nat) : Int)) := by
      rw [wrapInt_step]
      congr 1
      push_cast
      omega
    simp only []
    rw [e, readDecimal_loop_eof ds (fun x hx => hds x (List.mem_cons_of_mem _ hx)) d _
      (len + 1) (hds d (List.mem_cons_self _ _))]
    simp only [List.foldl_cons, List.length_cons, List.getLast_cons (List.cons_ne_nil d ds)]
    rw [show len + 1 + (ds.length : Int) = len + ((ds.length + 1 : Nat) : Int) by
      push_cast; ring]

theorem signOf_cases (s : List Nat) :
    (signOf s = [45] ∧ ∃ t, s = 45 :: t) ∨ (signOf s = [] ∧ s.head? ≠ some 45) := by
  unfold signOf
  by_cases h : s.head? = some 45
  · left
    refine ⟨if_pos h, ?_⟩
    cases s with
    | nil => simp at h
    | cons x t =>
      simp only [List.head?_cons, Option.some.injEq] at h
      exact ⟨t, by rw [h]⟩
  · right
    exact ⟨if_neg h, h⟩

theorem run_decomp (s : List Nat) : s = signOf s ++ (digitRun s ++ afterRun s) := by
  unfold digitRun afterRun
  rw [List.takeWhile_append_dropWhile]
  rcases signOf_cases s with ⟨h, t, rfl⟩ | ⟨h, _⟩
  · rw [h]; rfl
  · rw [h]; rfl

theorem digitRun_isDigit (s : List Nat) : ∀ d ∈ digitRun s, isDigit d = true :=
  fun _ hd => List.mem_takeWhile_imp hd

theorem afterRun_head (s : List Nat) (c : Nat) (rest : List Nat) (h : afterRun s = c :: rest) :
    isDigit c = false := by
  have := List.head?_dropWhile_not isDigit (s.drop (signOf s).length)
  unfold afterRun at h
  rw [h] at this
  simpa using this

theorem digitsValue_cons (d : Nat) (ds : List Nat) :
    digitsValue (d :: ds) = ds.foldl (fun a d => a * 10 + (d - 48)) (0 * 10 + (d - 48)) := by
  simp [digitsValue]

theorem wrapInt_zero : wrapInt 0 = 0 := by decide

theorem readDecimal_neg_run (d : Nat) (ds : List Nat) (c : Nat) (rest : List Nat)
    (lb : Option Nat) (hd : isDigit d = true) (hds : ∀ x ∈ ds, isDigit x = true)
    (hc : isDigit c = false) :
    readDecimal ⟨45 :: d :: (ds ++ c :: rest), lb⟩
      = (wrapInt (-(wrapInt (digitsValue (d :: ds)))), (((d :: ds).length + 1 : Nat) : Int),
          ⟨c :: rest, none⟩) := by
  have hl := readDecimal_loop_run ds hds d 0 (some d) 2 c rest hd hc
  simp only [Nat.cast_zero, wrapInt_zero] at hl
  unfold readDecimal
  simp only [Reader.ReadByte, if_true, hl, digitsValue_cons, List.length_cons]
  congr 2
  push_cast
  ring

theorem readDecimal_pos_run (d : Nat) (ds : List Nat) (c : Nat) (rest : List Nat)
    (lb : Option Nat) (hd : isDigit d = true) (hds : ∀ x ∈ ds, isDigit x = true)
    (hc : isDigit c = false) :
    readDecimal ⟨d :: (ds ++ c :: rest), lb⟩
      = (wrapInt (digitsValue (d :: ds)), (((d :: ds).length : Nat) : Int),
          ⟨c :: rest, none⟩) := by
  have hl := readDecimal_loop_run ds hds d 0 (some d) 1 c rest hd hc
  simp only [Nat.cast_zero, wrapInt_zero] at hl
  have hd45 : d ≠ 45 := by
    have := (isDigit_iff d).mp hd
    omega
  unfold readDecimal
  simp only [Reader.ReadByte, if_neg hd45, hl, digitsValue_cons, List.length_cons]
  congr 2
  push_cast
  ring

theorem readDecimal_neg_empty (c : Nat) (rest : List Nat) (lb : Option Nat)
    (hc : isDigit c = false) :
    readDecimal ⟨45 :: c :: rest, lb⟩ = (0, 1, ⟨c :: rest, none⟩) := by
  have hc' := (isDigit_false_iff c).mp hc
  unfold readDecimal
  simp only [Reader.ReadByte, if_true]
  rw [readDecimal.loop, if_pos hc']
  simp [Reader.UnreadByte, wrapInt_zero]

theorem readDecimal_pos_empty (c : Nat) (rest : List Nat) (lb : Option Nat)
    (hc : isDigit c = false) (h45 : c ≠ 45) :
    readDecimal ⟨c :: rest, lb⟩ = (0, 0, ⟨c :: rest, none⟩) := by
  have hc' := (isDigit_false_iff c).mp hc
  unfold readDecimal
  simp only [Reader.ReadByte, if_neg h45]
  rw [readDecimal.loop, if_pos hc']
  simp [Reader.UnreadByte]

theorem readDecimal_neg_run_eof (d : Nat) (ds : List Nat) (lb : Option Nat)
    (hd : isDigit d = true) (hds : ∀ x ∈ ds, isDigit x = true) :
    readDecimal ⟨45 :: d :: ds, lb⟩
      = (wrapInt (-(wrapInt (digitsValue (d :: ds)))), (((d :: ds).length + 1 : Nat) : Int),
          ⟨[(d :: ds).getLast (List.cons_ne_nil _ _)], none⟩) := by
  have hl := readDecimal_loop_eof ds hds d 0 2 hd
  simp only [Nat.cast_zero, wrapInt_zero] at hl
  unfold readDecimal
  simp only [Reader.ReadByte, if_true, hl, digitsValue_cons, List.length_cons]
  congr 2
  push_cast
  ring

theorem readDecimal_pos_run_eof (d : Nat) (ds : List Nat) (lb : Option Nat)
    (hd : isDigit d = true) (hds : ∀ x ∈ ds, isDigit x = true) :
    readDecimal ⟨d :: ds, lb⟩
      = (wrapInt (digitsValue (d :: ds)), (((d :: ds).length : Nat) : Int),
          ⟨[(d :: ds).getLast (List.cons_ne_nil _ _)], none⟩) := by
  have hl := readDecimal_loop_eof ds hds d 0 1 hd
  simp only [Nat.cast_zero, wrapInt_zero] at hl
  have hd45 : d ≠ 45 := by
    have := (isDigit_iff d).mp hd
    omega
  unfold readDecimal
  simp only [Reader.ReadByte, if_neg hd45, hl, digitsValue_cons, List.length_cons]
  congr 2
  push_cast
  ring

theorem readDecimal_neg_empty_eof (lb : Option Nat) :
    readDecimal ⟨[45], lb⟩ = (0, 1, ⟨[45], none⟩) := by
  unfold readDecimal
  simp only [Reader.ReadByte, if_true]
  rw [readDecimal.loop, if_pos (by omega)]
  simp [Reader.UnreadByte, wrapInt_zero]

theorem readDecimal_nil (lb : Option Nat) :
    readDecimal ⟨[], lb⟩ = (0, 0, Reader.UnreadByte ⟨[], lb⟩) := by
  unfold readDecimal
  simp only [Reader.ReadByte]
  rw [if_neg (by omega), readDecimal.loop, if_pos (by omega)]
  simp

/-- What `readDecimal` returns when a byte follows the sign and the digit run: the
wrapped value, the number of bytes of sign and digits, and the reader at that byte. -/
theorem readDecimal_of_next (s : List Nat) (lb : Option Nat) (hnext : afterRun s ≠ []) :
    readDecimal ⟨s, lb⟩
      = (runValue s, (((signOf s).length + (digitRun s).length : Nat) : Int),
          ⟨afterRun s, none⟩) := by
  obtain ⟨c, rest, hc⟩ := List.exists_cons_of_ne_nil hnext
  have hcd := afterRun_head s c rest hc
  have hdec := run_decomp s
  have hdig := digitRun_isDigit s
  unfold runValue
  rw [hc] at hdec ⊢
  generalize digitRun s = ds at hdec hdig ⊢
  rcases signOf_cases s with ⟨hs, _⟩ | ⟨hs, hne⟩
  · rw [hs] at hdec ⊢
    cases ds with
    | nil =>
      simp only [List.singleton_append, List.nil_append, List.cons_append, List.append_nil] at hdec
      rw [hdec, readDecimal_neg_empty c rest lb hcd]
      simp [digitsValue, wrapInt_zero]
    | cons d ds =>
      simp only [List.singleton_append, List.nil_append, List.cons_append, List.append_nil] at hdec
      rw [hdec, readDecimal_neg_run d ds c rest lb (hdig d (List.mem_cons_self _ _))
        (fun x hx => hdig x (List.mem_cons_of_mem _ hx)) hcd]
      simp only [if_true, List.length_cons, List.length_nil]
      congr 2
      push_cast
      ring
  · rw [hs] at hdec ⊢
    cases ds with
    | nil =>
      simp only [List.singleton_append, List.nil_append, List.cons_append, List.append_nil] at hdec
      have hc45 : c ≠ 45 := by
        intro h45
        apply hne
        rw [hdec, h45]
        rfl
      rw [hdec, readDecimal_pos_empty c rest lb hcd hc45]
      simp [digitsValue, wrapInt_zero]
    | cons d ds =>
      simp only [List.singleton_append, List.nil_append, List.cons_append, List.append_nil] at hdec
      rw [hdec, readDecimal_pos_run d ds c rest lb (hdig d (List.mem_cons_self _ _))
        (fun x hx => hdig x (List.mem_cons_of_mem _ hx)) hcd]
      simp

/-- What `readDecimal` returns when the input ends with the sign and the digit run: value
and count are as before; the byte read last (or the one in the `lastByte` register, when
the input is empty) is put back. -/
theorem readDecimal_of_eof (s : List Nat) (y : Nat) (hend : afterRun s = []) :
    ∃ x, readDecimal ⟨s, some y⟩
      = (runValue s, (((signOf s).length + (digitRun s).length : Nat) : Int), ⟨[x], none⟩) ∧
      (x = y ∨ x = 45 ∨ isDigit x = true) := by
  have hdec := run_decomp s
  have hdig := digitRun_isDigit s
  unfold runValue
  rw [hend] at hdec
  generalize digitRun s = ds at hdec hdig ⊢
  rcases signOf_cases s with ⟨hs, _⟩ | ⟨hs, hne⟩
  · rw [hs] at hdec ⊢
    cases ds with
    | nil =>
      simp only [List.singleton_append, List.nil_append, List.cons_append, List.append_nil] at hdec
      refine ⟨45, ?_, Or.inr (Or.inl rfl)⟩
      rw [hdec, readDecimal_neg_empty_eof]
      simp [digitsValue, wrapInt_zero]
    | cons d ds =>
      simp only [List.singleton_append, List.nil_append, List.cons_append, List.append_nil] at hdec
      refine ⟨(d :: ds).getLast (List.cons_ne_nil _ _), ?_,
        Or.inr (Or.inr (hdig _ (List.getLast_mem _)))⟩
      rw [hdec, readDecimal_neg_run_eof d ds _ (hdig d (List.mem_cons_self _ _))
        (fun x hx => hdig x (List.mem_cons_of_mem _ hx))]
      simp only [if_true, List.length_cons, List.length_nil]
      congr 2
      push_cast
      ring
  · rw [hs] at hdec ⊢
    cases ds with
    | nil =>
      simp only [List.singleton_append, List.nil_append, List.cons_append, List.append_nil] at hdec
      refine ⟨y, ?_, Or.inl rfl⟩
      rw [hdec, readDecimal_nil]
      simp [digitsValue, wrapInt_zero, Reader.UnreadByte]
    | cons d ds =>
      simp only [List.singleton_append, List.nil_append, List.cons_append, List.append_nil] at hdec
      refine ⟨(d :: ds).getLast (List.cons_ne_nil _ _), ?_,
        Or.inr (Or.inr (hdig _ (List.getLast_mem _)))⟩
      rw [hdec, readDecimal_pos_run_eof d ds _ (hdig d (List.mem_cons_self _ _))
        (fun x hx => hdig x (List.mem_cons_of_mem _ hx))]
      simp

theorem foldl_digits_bound : ∀ (ds : List Nat), (∀ d ∈ ds, isDigit d = true) → ∀ (a : Nat),
    ds.foldl (fun a d => a * 10 + (d - 48)) a + 1 ≤ (a + 1) * 10 ^ ds.length
  | [], _, a => by simp
  | d :: ds, hds, a => by
    have hd := (isDigit_iff d).mp (hds d (List.mem_cons_self _ _))
    have ih := foldl_digits_bound ds (fun x hx => hds x (List.mem_cons_of_mem _ hx))
      (a * 10 + (d - 48))
    simp only [List.foldl_cons, List.length_cons]
    calc List.foldl (fun a d => a * 10 + (d - 48)) (a * 10 + (d - 48)) ds + 1
        ≤ (a * 10 + (d - 48) + 1) * 10 ^ ds.length := ih
      _ ≤ ((a + 1) * 10) * 10 ^ ds.length := Nat.mul_le_mul_right _ (by omega)
      _ = (a + 1) * 10 ^ (ds.length + 1) := by ring

theorem digitsValue_lt (ds : List Nat) (hds : ∀ d ∈ ds, isDigit d = true) :
    digitsValue ds < 10 ^ ds.length := by
  have := foldl_digits_bound ds hds 0
  unfold digitsValue
  omega

theorem digitsValue_lt_of_length (ds : List Nat) (hds : ∀ d ∈ ds, isDigit d = true)
    (hlen : ds.length ≤ 18) : digitsValue ds < 10 ^ 18 :=
  lt_of_lt_of_le (digitsValue_lt ds hds) (Nat.pow_le_pow_right (by norm_num) hlen)

/-- Runs of at most eighteen digits are read without wrap-around. -/
theorem runValue_of_short (s : List Nat) (hlen : (digitRun s).length ≤ 18) :
    runValue s = if signOf s = [45] then -((digitsValue (digitRun s) : Nat) : Int)
      else ((digitsValue (digitRun s) : Nat) : Int) := by
  have hlt := digitsValue_lt_of_length (digitRun s) (digitRun_isDigit s) hlen
  unfold runValue
  have h1 : wrapInt ((digitsValue (digitRun s) : Nat) : Int) = (digitsValue (digitRun s) : Nat) :=
    wrapInt_natCast _ (by omega)
  rw [h1]
  split
  · exact wrapInt_of_range (by omega) (by omega)
  · rfl

/-- `decodeInt` on an input that starts with `'i'`: it returns the value of the sign and
digit run with no error when the next byte is `'e'`, and `ErrFormat` otherwise, also when
the input ends there. -/
theorem decodeInt_of_tag (s : List Nat) (lb : Option Nat) :
    (decodeInt ⟨105 :: s, lb⟩).1
      = (runValue s, if (afterRun s).head? = some 101 then none else some Error.ErrFormat) := by
  unfold decodeInt
  simp only [Reader.ReadByte, ne_eq, not_true_eq_false, if_false]
  cases hafter : afterRun s with
  | nil =>
    obtain ⟨x, hx, hxc⟩ := readDecimal_of_eof s 105 hafter
    rw [hx]
    have hx101 : x ≠ 101 := by
      rcases hxc with h | h | h
      · omega
      · omega
      · have := (isDigit_iff x).mp h
        omega
    simp [hx101]
  | cons c rest =>
    rw [readDecimal_of_next s (some 105) (by rw [hafter]; exact List.cons_ne_nil _ _), hafter]
    by_cases hc : c = 101
    · simp [hc]
    · simp [hc]

/-- The reader after a successful `decodeInt`: just behind the `'e'`. -/
theorem decodeInt_of_tag_ok (s : List Nat) (lb : Option Nat) (rest : List Nat)
    (h : afterRun s = 101 :: rest) :
    decodeInt ⟨105 :: s, lb⟩ = ((runValue s, none), ⟨rest, some 101⟩) := by
  unfold decodeInt
  simp only [Reader.ReadByte, ne_eq, not_true_eq_false, if_false]
  rw [readDecimal_of_next s (some 105) (by rw [h]; exact List.cons_ne_nil _ _), h]
  simp

theorem decodeInt_of_no_tag (br : Reader) (h : br.buf.head? ≠ some 105) :
    (decodeInt br).1 = (0, some Error.ErrFormat) := by
  obtain ⟨buf, lb⟩ := br
  cases buf with
  | nil => simp [decodeInt, Reader.ReadByte]
  | cons c cs =>
    have hc : c ≠ 105 := by simpa using h
    simp [decodeInt, Reader.ReadByte, hc]

/-- Value and count of `readDecimal` on any input, also one that ends with the run. -/
theorem readDecimal_value_count (s : List Nat) (lb : Option Nat) :
    (readDecimal ⟨s, lb⟩).1 = runValue s ∧
    (readDecimal ⟨s, lb⟩).2.1 = (((signOf s).length + (digitRun s).length : Nat) : Int) := by
  by_cases hafter : afterRun s = []
  · cases lb with
    | some y =>
      obtain ⟨x, hx, _⟩ := readDecimal_of_eof s y hafter
      rw [hx]
      exact ⟨rfl, rfl⟩
    | none =>
      by_cases hs : s = []
      · subst hs
        rw [readDecimal_nil]
        exact ⟨by decide, by decide⟩
      · have hdec := run_decomp s
        rw [hafter] at hdec
        have hdig := digitRun_isDigit s
        unfold runValue
        generalize digitRun s = ds at hdec hdig ⊢
        rcases signOf_cases s with ⟨h, _⟩ | ⟨h, _⟩
        · rw [h] at hdec ⊢
          cases ds with
          | nil =>
            simp only [List.singleton_append, List.nil_append, List.cons_append,
              List.append_nil] at hdec
            rw [hdec, readDecimal_neg_empty_eof]
            simp [digitsValue, wrapInt_zero]
          | cons d ds =>
            simp only [List.singleton_append, List.nil_append, List.cons_append,
              List.append_nil] at hdec
            rw [hdec, readDecimal_neg_run_eof d ds _ (hdig d (List.mem_cons_self _ _))
              (fun x hx => hdig x (List.mem_cons_of_mem _ hx))]
            simp only [if_true, List.length_cons, List.length_nil, true_and]
            push_cast
            ring
        · rw [h] at hdec ⊢
          cases ds with
          | nil =>
            simp only [List.singleton_append, List.nil_append, List.cons_append,
              List.append_nil] at hdec
            exact absurd hdec hs
          | cons d ds =>
            simp only [List.singleton_append, List.nil_append, List.cons_append,
              List.append_nil] at hdec
            rw [hdec, readDecimal_pos_run_eof d ds _ (hdig d (List.mem_cons_self _ _))
              (fun x hx => hdig x (List.mem_cons_of_mem _ hx))]
            simp
  · rw [readDecimal_of_next s lb hafter]
    exact ⟨rfl, rfl⟩

/-- Claim C20, amended: every input is an optional sign, the maximal run of digits and a
remainder that does not start with a digit. When the run is not empty, `readDecimal`
returns its value (`runValue`: the digits accumulated with 64-bit wrap-around, negated
after a sign), which is the integer the run denotes when the run has at most eighteen
digits, and as second result the number of bytes of sign and digits. When the input
starts with neither a sign nor a digit the count is `0`. When the remainder is not
empty, the reader is left at its first byte. -/
theorem readDecimal_contract (s : List Nat) (lb : Option Nat) :
    s = signOf s ++ (digitRun s ++ afterRun s) ∧
    (∀ d ∈ digitRun s, isDigit d = true) ∧
    (∀ c rest, afterRun s = c :: rest →
      isDigit c = false ∧ (readDecimal ⟨s, lb⟩).2.2 = ⟨c :: rest, none⟩) ∧
    (digitRun s ≠ [] →
      (readDecimal ⟨s, lb⟩).1 = runValue s ∧
      (readDecimal ⟨s, lb⟩).2.1 = (((signOf s).length + (digitRun s).length : Nat) : Int)) ∧
    ((digitRun s).length ≤ 18 →
      runValue s = if signOf s = [45] then -((digitsValue (digitRun s) : Nat) : Int)
        else ((digitsValue (digitRun s) : Nat) : Int)) ∧
    (signOf s = [] → digitRun s = [] → (readDecimal ⟨s, lb⟩).2.1 = 0) := by
  obtain ⟨hv, hc⟩ := readDecimal_value_count s lb
  refine ⟨run_decomp s, digitRun_isDigit s, ?_, fun _ => ⟨hv, hc⟩, runValue_of_short s, ?_⟩
  · intro c rest h
    refine ⟨afterRun_head s c rest h, ?_⟩
    rw [readDecimal_of_next s lb (by rw [h]; exact List.cons_ne_nil _ _), h]
  · intro h1 h2
    rw [hc, h1, h2]
    rfl

/-- The input `"-12x"`: value `-12`, count `3`, the reader left at `'x'`. -/
theorem readDecimal_contract_witness :
    digitRun [45, 49, 50, 120] ≠ [] ∧ (digitRun [45, 49, 50, 120]).length ≤ 18 ∧
    ((readDecimal ⟨[45, 49, 50, 120], none⟩).1 = runValue [45, 49, 50, 120] ∧
      (readDecimal ⟨[45, 49, 50, 120], none⟩).2.1
        = (((signOf [45, 49, 50, 120]).length + (digitRun [45, 49, 50, 120]).length : Nat)
            : Int)) ∧
    runValue [45, 49, 50, 120]
      = (if signOf [45, 49, 50, 120] = [45]
          then -((digitsValue (digitRun [45, 49, 50, 120]) : Nat) : Int)
          else ((digitsValue (digitRun [45, 49, 50, 120]) : Nat) : Int)) ∧
    readDecimal ⟨[45, 49, 50, 120], none⟩ = (-12, 3, ⟨[120], none⟩) :=
  ⟨by decide, by decide,
   (readDecimal_contract [45, 49, 50, 120] none).2.2.2.1 (by decide),
   (readDecimal_contract [45, 49, 50, 120] none).2.2.2.2.1 (by decide),
   by decide⟩

/-- Claim C20 as stated fails: on `"-x"`, where only a sign is present, the count that
`readDecimal` returns is `1`, not `0`; and on a run of nineteen digits,
`"9223372036854775808x"`, the value returned is `-9223372036854775808`, not the integer
the run denotes. -/
theorem readDecimal_contract_counterexample :
    readDecimal (Reader.ofString [45, 120]) = (0, 1, ⟨[120], none⟩) ∧
    digitRun [45, 120] = [] ∧
    (readDecimal (Reader.ofString
      [57, 50, 50, 51, 51, 55, 50, 48, 51, 54, 56, 53, 52, 55, 55, 53, 56, 48, 56, 120])).1
      = -9223372036854775808 ∧
    digitsValue [57, 50, 50, 51, 51, 55, 50, 48, 51, 54, 56, 53, 52, 55, 55, 53, 56, 48, 56]
      = 9223372036854775808 := by
  refine ⟨by decide, by decide, ?_, by decide⟩
  simp [readDecimal, readDecimal.loop, Reader.ReadByte, Reader.UnreadByte, wrapInt,
    Reader.ofString]

/-- Claim C11, amended: `decodeInt` fails with `ErrFormat` when the input does not start
with `'i'`; on an input that starts with `'i'` it fails with `ErrFormat` when the byte
after the sign and digit run is not `'e'`, also when the input ends there; otherwise it
returns with no error, when the run has a digit, the value of the sign and digit run
accumulated with 64-bit wrap-around, which is the integer the run denotes when the run
has at most eighteen digits, and leaves the reader just behind the `'e'`. -/
theorem decodeInt_conditions :
    (∀ br : Reader, br.buf.head? ≠ some 105 → (decodeInt br).1 = (0, some Error.ErrFormat)) ∧
    (∀ (s : List Nat) (lb : Option Nat), (afterRun s).head? ≠ some 101 →
      (decodeInt ⟨105 :: s, lb⟩).1.2 = some Error.ErrFormat) ∧
    (∀ (s : List Nat) (lb : Option Nat) (rest : List Nat), digitRun s ≠ [] →
      afterRun s = 101 :: rest →
      decodeInt ⟨105 :: s, lb⟩ = ((runValue s, none), ⟨rest, some 101⟩)) ∧
    (∀ s : List Nat, (digitRun s).length ≤ 18 →
      runValue s = if signOf s = [45] then -((digitsValue (digitRun s) : Nat) : Int)
        else ((digitsValue (digitRun s) : Nat) : Int)) := by
  refine ⟨decodeInt_of_no_tag, ?_, fun s lb rest _ h => decodeInt_of_tag_ok s lb rest h,
    runValue_of_short⟩
  intro s lb h
  rw [decodeInt_of_tag, if_neg h]

/-- The inputs `"x"`, `"i42x"`, `"i42"` and `"i42e"`. -/
theorem decodeInt_conditions_witness :
    (decodeInt (Reader.ofString [120])).1 = (0, some Error.ErrFormat) ∧
    (decodeInt ⟨105 :: [52, 50, 120], none⟩).1.2 = some Error.ErrFormat ∧
    (decodeInt ⟨105 :: [52, 50], none⟩).1.2 = some Error.ErrFormat ∧
    decodeInt ⟨105 :: [52, 50, 101], none⟩ = ((runValue [52, 50, 101], none), ⟨[], some 101⟩) ∧
    runValue [52, 50, 101] = 42 :=
  ⟨decodeInt_conditions.1 (Reader.ofString [120]) (by decide),
   decodeInt_conditions.2.1 [52, 50, 120] none (by decide),
   decodeInt_conditions.2.1 [52, 50] none (by decide),
   decodeInt_conditions.2.2.1 [52, 50, 101] none [] (by decide) (by decide),
   (decodeInt_conditions.2.2.2 [52, 50, 101] (by decide)).trans (by decide)⟩

/-- Claim C11 as stated fails: on `"i9223372036854775808e"` `decodeInt` returns
`-9223372036854775808` with no error, which is not the integer `9223372036854775808`
that the digit run denotes. -/
theorem decodeInt_conditions_counterexample :
    decodeInt (Reader.ofString
      [105, 57, 50, 50, 51, 51, 55, 50, 48, 51, 54, 56, 53, 52, 55, 55, 53, 56, 48, 56, 101])
      = ((-9223372036854775808, none), ⟨[], some 101⟩) ∧
    digitsValue [57, 50, 50, 51, 51, 55, 50, 48, 51, 54, 56, 53, 52, 55, 55, 53, 56, 48, 56]
      = 9223372036854775808 := by
  refine ⟨?_, by decide⟩
  simp [decodeInt, readDecimal, readDecimal.loop, Reader.ReadByte, Reader.UnreadByte, wrapInt,
    Reader.ofString]

/-- Claim C16, evaluated at `"ie"` and `"i-e"`: `decodeInt` drops the count that
`readDecimal` returns, so the missing digit run goes unnoticed and both inputs decode to
the integer `0` with no error, in `decodeInt` and in `BencodeDecodeFromString`. -/
theorem decodeInt_missing_digits_accepted :
    decodeInt (Reader.ofString [105, 101]) = ((0, none), ⟨[], some 101⟩) ∧
    decodeInt (Reader.ofString [105, 45, 101]) = ((0, none), ⟨[], some 101⟩) ∧
    (∀ fuel, BencodeDecodeFromString (fuel + 2) [105, 101] = .ret ([.int 0], none)) ∧
    (∀ fuel, BencodeDecodeFromString (fuel + 2) [105, 45, 101] = .ret ([.int 0], none)) := by
  refine ⟨by decide, by decide, fun fuel => rfl, fun fuel => rfl⟩

/-- When the input starts with neither a sign nor a digit (or is empty), `decodeString`
fails with `ErrNum` and returns the empty string. -/
theorem decodeString_of_no_number (br : Reader) (h45 : br.buf.head? ≠ some 45)
    (hdig : ∀ c, br.buf.head? = some c → isDigit c = false) :
    ∃ br', decodeString br = .ret (([], some Error.ErrNum), br') := by
  obtain ⟨buf, lb⟩ := br
  cases buf with
  | nil =>
    refine ⟨Reader.UnreadByte ⟨[], lb⟩, ?_⟩
    unfold decodeString
    rw [readDecimal_nil]
    simp
  | cons c rest =>
    have hc45 : c ≠ 45 := by simpa using h45
    refine ⟨⟨c :: rest, none⟩, ?_⟩
    unfold decodeString
    rw [readDecimal_pos_empty c rest lb (hdig c rfl) hc45]
    simp

/-- Claim C13, evaluated at a length prefix that is a sign without digits: on `"-:"`
`readDecimal` returns the count `1`, so the test `len == 0` does not fire and
`decodeString` returns the empty string with no error instead of `ErrNum`; at a
dictionary key position, `"d-:i1ee"` decodes to `{"": 1}` with no error. The input
`":abc"` does fail with `ErrNum`. -/
theorem decodeString_sign_only_accepted :
    decodeString (Reader.ofString [45, 58]) = .ret (([], none), ⟨[], some 58⟩) ∧
    (∀ fuel, BencodeDecodeFromString (fuel + 4) [100, 45, 58, 105, 49, 101, 101]
      = .ret ([.dict [([], .int 1)]], none)) ∧
    decodeString (Reader.ofString [58, 97, 98, 99])
      = .ret (([], some Error.ErrNum), ⟨[58, 97, 98, 99], none⟩) := by
  refine ⟨by decide, fun fuel => rfl, by decide⟩

/-- Claim C14, evaluated at a negative length prefix: on `"-1:a"` `decodeString` reaches
`make([]byte, -1)` and panics; `BencodeDecodeFromString` on `"d-1:ae"`, where the key
position starts with `'-'`, panics as well. -/
theorem decodeString_negative_length_panics :
    decodeString (Reader.ofString [45, 49, 58, 97]) = .panic ∧
    (∀ fuel, BencodeDecodeFromString (fuel + 3) [100, 45, 49, 58, 97, 101] = .panic) := by
  refine ⟨by decide, fun fuel => rfl⟩

theorem encodeMap_head (fuel : Nat) (m : List (List Nat × Value)) (bs : List Nat) (n : Int)
    (h : encodeMap fuel m = .ret (bs, n)) : ∃ t, bs = 100 :: t := by
  unfold encodeMap encodeMap.frame at h
  obtain ⟨⟨b, k⟩, _, hret⟩ := Outcome.bind_eq_ret h
  simp only [Outcome.ret.injEq, Prod.mk.injEq] at hret
  exact ⟨b ++ [101], by rw [← hret.1]; rfl⟩

/-- Claim C12, evaluated at every dictionary: whatever bytes `BencodeEncode` writes for
a dictionary `m`, `decodeSlice` on `'l'`, those bytes, `'e'` does not return for any
fuel, because the `'d'` branch of its loop is empty. It never returns `[m]`. -/
theorem decodeSlice_dict_never_decoded (fuelE fuel : Nat) (m : List (List Nat × Value))
    (bs : List Nat) (h : BencodeEncode fuelE (.dict m) = .ret bs) :
    decodeSlice fuel (Reader.ofString (108 :: bs ++ [101])) = .outOfFuel := by
  unfold BencodeEncode at h
  obtain ⟨⟨b, n⟩, henc, hret⟩ := Outcome.bind_eq_ret h
  simp only [Outcome.ret.injEq] at hret
  obtain ⟨t, ht⟩ := encodeMap_head fuelE m b n henc
  rw [← hret, ht]
  exact decodeSlice_dict_element fuel (t ++ [101]) none

/-- The dictionary `{"a": 1}`, written as `"d1:ai1ee"`, inside a list. -/
theorem decodeSlice_dict_never_decoded_witness :
    BencodeEncode 2 (.dict [([97], .int 1)]) = .ret [100, 49, 58, 97, 105, 49, 101, 101] ∧
    decodeSlice 9 (Reader.ofString (108 :: [100, 49, 58, 97, 105, 49, 101, 101] ++ [101]))
      = .outOfFuel :=
  ⟨by decide,
   decodeSlice_dict_never_decoded 2 9 [([97], .int 1)] [100, 49, 58, 97, 105, 49, 101, 101]
    (by decide)⟩

/-- Claim C18, evaluated at `"lde"` and `"ld"`: `BencodeDecodeFromString` does not return
for any fuel, because the iteration of the loop of `decodeSlice` that peeks `'d'`
neither consumes a byte nor returns. -/
theorem decode_list_with_dict_tag_never_returns :
    (∀ fuel, BencodeDecodeFromString fuel [108, 100, 101] = .outOfFuel) ∧
    (∀ fuel, BencodeDecodeFromString fuel [108, 100] = .outOfFuel) := by
  constructor <;> intro fuel <;>
    simp [BencodeDecodeFromString, BencodeDecodeFromReader, Reader.ofString,
      topLoop_list_of_dict, Outcome.bind]

/-! ### Leading digits of the decimal writer -/

theorem wrapInt_range (x : Int) : -(2 ^ 63) ≤ wrapInt x ∧ wrapInt x < 2 ^ 63 := by
  unfold wrapInt
  omega

/-- The divisor that the first loop of `writeDecimal` hands to the second loop, for any
positive `val` of the `int` range: it is positive, at most `val`, and more than a tenth
of `val`, also after the multiplication by ten has wrapped around. -/
theorem findDivisor_bounds : ∀ (fuel : Nat) (dv val r : Int), 1 ≤ val → val ≤ maxInt →
    -(2 ^ 63) ≤ dv → dv < 2 ^ 63 →
    (dv = 1 ∨ (10 ≤ dv ∧ dv % 10 = 0 ∧ dv / 10 ≤ val) ∨ 922337203685477581 ≤ val) →
    writeDecimal.findDivisor fuel dv val = .ret r → 1 ≤ r ∧ r ≤ val ∧ val ≤ 10 * r + 9
  | 0, _, _, _, _, _, _, _, _, h => by simp [writeDecimal.findDivisor] at h
  | fuel + 1, dv, val, r, hv1, hvmax, hlo, hhi, hinv, h => by
    unfold maxInt at hvmax
    rw [writeDecimal.findDivisor] at h
    split at h
    · rename_i hgt
      simp only [Outcome.ret.injEq] at h
      have hdv0 : 0 ≤ dv := by omega
      rw [Int.tdiv_eq_ediv hdv0 (by omega)] at h
      unfold wrapInt at h
      omega
    · rename_i hle
      have hr := wrapInt_range (dv * 10)
      refine findDivisor_bounds fuel (wrapInt (dv * 10)) val r hv1 (by unfold maxInt; omega)
        hr.1 hr.2 ?_ h
      rcases hinv with h1 | h2 | h3
      · right; left
        have h10 : wrapInt (1 * 10) = 10 := by decide
        rw [h1, h10]
        omega
      · by_cases hbig : dv * 10 < 2 ^ 63
        · right; left
          rw [wrapInt_of_range (by omega) hbig]
          omega
        · right; right
          omega
      · exact Or.inr (Or.inr h3)

theorem digits_head (fuel : Nat) (r val : Int) (bs : List Nat) (n : Int)
    (hr1 : 1 ≤ r) (hrv : r ≤ val) (hv : val ≤ 10 * r + 9) (hvmax : val ≤ maxInt)
    (h : writeDecimal.digits fuel r val = .ret (bs, n)) :
    ∃ b t, bs = b :: t ∧ 49 ≤ b ∧ b ≤ 67 := by
  unfold maxInt at hvmax
  cases fuel with
  | zero => simp [writeDecimal.digits] at h
  | succ fuel =>
    have hq1 : 1 ≤ val / r := Int.le_ediv_of_mul_le (by omega) (by omega)
    have hq2 : val / r < 20 := Int.ediv_lt_of_lt_mul (by omega) (by omega)
    have hb : 49 ≤ (48 + toByte (wrapInt (Int.tdiv val r))) % 256 ∧
        (48 + toByte (wrapInt (Int.tdiv val r))) % 256 ≤ 67 := by
      rw [Int.tdiv_eq_ediv (by omega) (by omega)]
      generalize val / r = q at hq1 hq2
      unfold toByte wrapInt
      omega
    rw [writeDecimal.digits, if_neg (by omega)] at h
    split at h
    · simp only [Outcome.ret.injEq, Prod.mk.injEq] at h
      exact ⟨_, [], h.1.symm, hb⟩
    · obtain ⟨⟨t, k⟩, _, hret⟩ := Outcome.bind_eq_ret h
      simp only [Outcome.ret.injEq, Prod.mk.injEq] at hret
      exact ⟨_, t, hret.1.symm, hb⟩

/-- The text that `writeDecimal` writes for a value other than zero, whenever it returns:
an optional `'-'` (exactly for negative values) and then a byte that is not `'0'`. -/
theorem writeDecimal_head (fuel : Nat) (n : Int) (bs : List Nat) (cnt : Int)
    (hlo : minInt ≤ n) (hhi : n ≤ maxInt) (hn : n ≠ 0)
    (h : writeDecimal fuel n = .ret (bs, cnt)) :
    ∃ b t, 49 ≤ b ∧ b ≤ 67 ∧ bs = (if n < 0 then [45] else []) ++ b :: t := by
  unfold minInt at hlo
  have hhi' := hhi
  unfold maxInt at hhi'
  rw [writeDecimal, if_neg hn] at h
  obtain ⟨dv, hfd, h2⟩ := Outcome.bind_eq_ret h
  obtain ⟨⟨ds, k⟩, hdg, hret⟩ := Outcome.bind_eq_ret h2
  simp only [Outcome.ret.injEq, Prod.mk.injEq] at hret
  by_cases hneg : n < 0
  · simp only [if_pos hneg] at hfd hdg hret ⊢
    by_cases hmin : n = -(2 ^ 63)
    · exfalso
      subst hmin
      have hw : wrapInt (-(2 ^ 63) * -1) = -(2 ^ 63) := by decide
      rw [hw] at hfd hdg
      cases fuel with
      | zero => simp [writeDecimal.findDivisor] at hfd
      | succ fuel =>
        have h10 : Int.tdiv 1 10 = 0 := by decide
        rw [writeDecimal.findDivisor, if_pos (by decide), h10, wrapInt_zero] at hfd
        simp only [Outcome.ret.injEq] at hfd
        rw [← hfd] at hdg
        simp [writeDecimal.digits] at hdg
    · have hw : wrapInt (n * -1) = -n := by
        unfold wrapInt
        omega
      rw [hw] at hfd hdg
      have hb := findDivisor_bounds fuel 1 (-n) dv (by omega) (by unfold maxInt; omega)
        (by omega) (by omega) (Or.inl rfl) hfd
      obtain ⟨b, t, hbs, hb1, hb2⟩ := digits_head fuel dv (-n) ds k hb.1 hb.2.1 hb.2.2
        (by unfold maxInt; omega) hdg
      exact ⟨b, t, hb1, hb2, by rw [← hret.1, hbs]⟩
  · simp only [if_neg hneg] at hfd hdg hret ⊢
    have hb := findDivisor_bounds fuel 1 n dv (by omega) hhi (by omega) (by omega)
      (Or.inl rfl) hfd
    obtain ⟨b, t, hbs, hb1, hb2⟩ := digits_head fuel dv n ds k hb.1 hb.2.1 hb.2.2 hhi hdg
    exact ⟨b, t, hb1, hb2, by rw [← hret.1, hbs]⟩

theorem isDigit_e : isDigit 101 = false := by decide

theorem isDigit_colon : isDigit 58 = false := by decide

/-- `decodeInt` on `'i'`, a non-empty run of at most eighteen digits, `'e'`. -/
theorem decodeInt_digits (ds rest : List Nat) (lb : Option Nat) (hne : ds ≠ [])
    (hlen : ds.length ≤ 18) (hdig : ∀ d ∈ ds, isDigit d = true) :
    decodeInt ⟨105 :: (ds ++ 101 :: rest), lb⟩
      = ((((digitsValue ds : Nat) : Int), none), ⟨rest, some 101⟩) := by
  obtain ⟨d, ds', rfl⟩ := List.exists_cons_of_ne_nil hne
  have hlt := digitsValue_lt_of_length (d :: ds') hdig hlen
  unfold decodeInt
  simp only [Reader.ReadByte, ne_eq, not_true_eq_false, if_false, List.cons_append]
  rw [readDecimal_pos_run d ds' 101 rest (some 105) (hdig d (List.mem_cons_self _ _))
    (fun x hx => hdig x (List.mem_cons_of_mem _ hx)) isDigit_e]
  simp only [wrapInt_natCast _ (show digitsValue (d :: ds') < 2 ^ 63 by omega)]
  simp

/-- `decodeInt` on `'i'`, `'-'`, a non-empty run of at most eighteen digits, `'e'`. -/
theorem decodeInt_neg_digits (ds rest : List Nat) (lb : Option Nat) (hne : ds ≠ [])
    (hlen : ds.length ≤ 18) (hdig : ∀ d ∈ ds, isDigit d = true) :
    decodeInt ⟨105 :: 45 :: (ds ++ 101 :: rest), lb⟩
      = ((-((digitsValue ds : Nat) : Int), none), ⟨rest, some 101⟩) := by
  obtain ⟨d, ds', rfl⟩ := List.exists_cons_of_ne_nil hne
  have hlt := digitsValue_lt_of_length (d :: ds') hdig hlen
  unfold decodeInt
  simp only [Reader.ReadByte, ne_eq, not_true_eq_false, if_false, List.cons_append]
  rw [readDecimal_neg_run d ds' 101 rest (some 105) (hdig d (List.mem_cons_self _ _))
    (fun x hx => hdig x (List.mem_cons_of_mem _ hx)) isDigit_e]
  simp only [wrapInt_natCast _ (show digitsValue (d :: ds') < 2 ^ 63 by omega)]
  rw [wrapInt_of_range (by omega) (by omega)]
  simp

/-- Claim C17: a non-empty string `ds` of at most eighteen digits, leading zeros
allowed, is decoded by `decodeInt` from `'i' ds 'e'` to its numeric value and from
`'i' '-' ds 'e'` to the negation, with no error. And whatever `encodeInt` writes for a
value of the `int` range, when it returns: if the text after `'i'` starts with `'0'`,
it is `"0"` alone (no leading zero before another digit), and it never starts with
`"-0"` (so the output is never `"i-0e"`). -/
theorem noncanonical_integers :
    (∀ (ds : List Nat), ds ≠ [] → ds.length ≤ 18 → (∀ d ∈ ds, isDigit d = true) →
      decodeInt (Reader.ofString (105 :: (ds ++ [101])))
        = ((((digitsValue ds : Nat) : Int), none), ⟨[], some 101⟩) ∧
      decodeInt (Reader.ofString (105 :: 45 :: (ds ++ [101])))
        = ((-((digitsValue ds : Nat) : Int), none), ⟨[], some 101⟩)) ∧
    (∀ (fuel : Nat) (n : Int) (bs : List Nat) (cnt : Int), minInt ≤ n → n ≤ maxInt →
      encodeInt fuel n = .ret (bs, cnt) →
      (∀ t, bs = 105 :: 48 :: t → t = [101]) ∧ (∀ t, bs ≠ 105 :: 45 :: 48 :: t)) := by
  constructor
  · intro ds hne hlen hdig
    exact ⟨decodeInt_digits ds [] none hne hlen hdig, decodeInt_neg_digits ds [] none hne hlen hdig⟩
  · intro fuel n bs cnt hlo hhi h
    unfold encodeInt at h
    obtain ⟨⟨txt, k⟩, hw, hret⟩ := Outcome.bind_eq_ret h
    simp only [Outcome.ret.injEq, Prod.mk.injEq] at hret
    by_cases hn : n = 0
    · subst hn
      simp only [writeDecimal, if_true, Outcome.ret.injEq, Prod.mk.injEq] at hw
      rw [← hret.1, ← hw.1]
      simp
    · obtain ⟨b, t, hb1, hb2, htxt⟩ := writeDecimal_head fuel n txt k hlo hhi hn hw
      rw [← hret.1, htxt]
      by_cases hneg : n < 0
      · simp only [if_pos hneg]
        constructor
        · intro t' ht'
          simp at ht'
        · intro t' ht'
          simp only [List.cons_append, List.nil_append, List.cons.injEq, true_and] at ht'
          omega
      · simp only [if_neg hneg]
        constructor
        · intro t' ht'
          simp only [List.cons_append, List.nil_append, List.cons.injEq, true_and] at ht'
          omega
        · intro t' ht'
          simp only [List.cons_append, List.nil_append, List.cons.injEq, true_and] at ht'
          omega

/-- The inputs `"i007e"` and `"i-007e"`, and the output `"i-7e"` of `encodeInt` for `-7`. -/
theorem noncanonical_integers_witness :
    ([48, 48, 55] ≠ [] ∧ [48, 48, 55].length ≤ 18 ∧ ∀ d ∈ [48, 48, 55], isDigit d = true) ∧
    digitsValue [48, 48, 55] = 7 ∧
    (decodeInt (Reader.ofString (105 :: ([48, 48, 55] ++ [101])))
        = ((((digitsValue [48, 48, 55] : Nat) : Int), none), ⟨[], some 101⟩) ∧
      decodeInt (Reader.ofString (105 :: 45 :: ([48, 48, 55] ++ [101])))
        = ((-((digitsValue [48, 48, 55] : Nat) : Int), none), ⟨[], some 101⟩)) ∧
    (minInt ≤ -7 ∧ -7 ≤ maxInt ∧ encodeInt 2 (-7) = .ret ([105, 45, 55, 101], 4)) ∧
    ((∀ t, [105, 45, 55, 101] = 105 :: 48 :: t → t = [101]) ∧
      (∀ t, [105, 45, 55, 101] ≠ 105 :: 45 :: 48 :: t)) :=
  ⟨⟨by decide, by decide, by decide⟩, by decide,
   noncanonical_integers.1 [48, 48, 55] (by decide) (by decide) (by decide),
   ⟨by decide, by decide, by decide⟩,
   noncanonical_integers.2 2 (-7) [105, 45, 55, 101] 4 (by decide) (by decide) (by decide)⟩

/-! ### Round trip on the supported values -/

mutual
/-- Induction over values: a property that holds for integers and strings, for a list
when it holds for the elements, and for a dictionary when it holds for the stored
values, holds for every value. -/
theorem Value.induction (P : Value → Prop) (hint : ∀ n, P (.int n)) (hstr : ∀ s, P (.str s))
    (hlist : ∀ xs, (∀ x ∈ xs, P x) → P (.list xs))
    (hdict : ∀ m, (∀ p ∈ m, P p.2) → P (.dict m)) : ∀ v, P v
  | .int n => hint n
  | .str s => hstr s
  | .list xs => hlist xs (Value.induction_list P hint hstr hlist hdict xs)
  | .dict m => hdict m (Value.induction_values P hint hstr hlist hdict m)
theorem Value.induction_list (P : Value → Prop) (hint : ∀ n, P (.int n))
    (hstr : ∀ s, P (.str s)) (hlist : ∀ xs, (∀ x ∈ xs, P x) → P (.list xs))
    (hdict : ∀ m, (∀ p ∈ m, P p.2) → P (.dict m)) : ∀ xs : List Value, ∀ x ∈ xs, P x
  | [], _, h => by simp at h
  | y :: ys, x, h => by
    rcases List.mem_cons.mp h with rfl | h'
    · exact Value.induction P hint hstr hlist hdict x
    · exact Value.induction_list P hint hstr hlist hdict ys x h'
theorem Value.induction_values (P : Value → Prop) (hint : ∀ n, P (.int n))
    (hstr : ∀ s, P (.str s)) (hlist : ∀ xs, (∀ x ∈ xs, P x) → P (.list xs))
    (hdict : ∀ m, (∀ p ∈ m, P p.2) → P (.dict m)) :
    ∀ m : List (List Nat × Value), ∀ p ∈ m, P p.2
  | [], _, h => by simp at h
  | (k, v) :: rest, p, h => by
    rcases List.mem_cons.mp h with rfl | h'
    · exact Value.induction P hint hstr hlist hdict v
    · exact Value.induction_values P hint hstr hlist hdict rest p h'
end

theorem wireList_eq (xs : List Value) : Value.wireList xs = (xs.map Value.wire).flatten := by
  induction xs with
  | nil => simp [Value.wireList]
  | cons x xs ih => simp [Value.wireList, ih]

theorem wireValues_eq (m : List (List Nat × Value)) :
    Value.wireValues m = m.map fun p => (p.1, Value.wire p.2) := by
  induction m with
  | nil => simp [Value.wireValues]
  | cons p rest ih =>
    obtain ⟨k, v⟩ := p
    simp [Value.wireValues, ih]

theorem canonList_eq (xs : List Value) : Value.canonList xs = xs.map Value.canon := by
  induction xs with
  | nil => simp [Value.canonList]
  | cons x xs ih => simp [Value.canonList, ih]

theorem canonValues_eq (m : List (List Nat × Value)) :
    Value.canonValues m = m.map fun p => (p.1, Value.canon p.2) := by
  induction m with
  | nil => simp [Value.canonValues]
  | cons p rest ih =>
    obtain ⟨k, v⟩ := p
    simp [Value.canonValues, ih]

theorem supportedList_iff (xs : List Value) :
    Value.supportedList xs = true ↔ ∀ x ∈ xs, Value.isDict x = false ∧ Value.supported x = true := by
  induction xs with
  | nil => simp [Value.supportedList]
  | cons x xs ih => simp [Value.supportedList, ih]

theorem supportedValues_iff (m : List (List Nat × Value)) :
    Value.supportedValues m = true ↔
      ∀ p ∈ m, p.1.length < 10 ^ 18 ∧ Value.supported p.2 = true := by
  induction m with
  | nil => simp [Value.supportedValues]
  | cons p rest ih =>
    obtain ⟨k, v⟩ := p
    simp [Value.supportedValues, ih]

theorem digitsValue_append_singleton (ds : List Nat) (d : Nat) :
    digitsValue (ds ++ [d]) = digitsValue ds * 10 + (d - 48) := by
  simp [digitsValue, List.foldl_append]

theorem digitsValue_of_digits : ∀ (L : List Nat),
    digitsValue (L.reverse.map fun d => 48 + d) = Nat.ofDigits 10 L
  | [] => by simp [digitsValue]
  | x :: L => by
    rw [List.reverse_cons, List.map_append, List.map_singleton, digitsValue_append_singleton,
      digitsValue_of_digits L, Nat.ofDigits_cons]
    simp
    ring

/-- Reading the canonical decimal text of a number gives the number back. -/
theorem digitsValue_decimalText (n : Nat) : digitsValue (decimalText n) = n := by
  unfold decimalText
  split
  · next h => subst h; rfl
  · rw [digitsValue_of_digits, Nat.ofDigits_digits]

theorem decimalText_isDigit (n : Nat) : ∀ d ∈ decimalText n, isDigit d = true := by
  intro d hd
  unfold decimalText at hd
  split at hd
  · simp only [List.mem_singleton] at hd
    subst hd
    rfl
  · obtain ⟨x, hx, rfl⟩ := List.mem_map.mp hd
    have := Nat.digits_lt_base (by norm_num : 1 < 10) (List.mem_reverse.mp hx)
    rw [isDigit_iff]
    omega

theorem decimalText_ne_nil (n : Nat) : decimalText n ≠ [] := by
  unfold decimalText
  split
  · simp
  · next h =>
    simp only [ne_eq, List.map_eq_nil_iff, List.reverse_eq_nil_iff]
    exact Nat.digits_ne_nil_iff_ne_zero.mpr h

theorem decimalText_length_le (n : Nat) (hn : n < 10 ^ 18) : (decimalText n).length ≤ 18 := by
  by_cases h0 : n = 0
  · subst h0
    simp [decimalText]
  · obtain ⟨m, hm, hlo, hhi⟩ := exists_digit_count n (by omega) hn
    rw [decimalText_eq_beDigits m n hlo hhi, List.length_map, beDigits_length]
    omega

/-- `decodeString` on the wire format of a string shorter than `10^18` bytes returns the
string with no error and leaves the reader behind it. -/
theorem decodeString_wire (s rest : List Nat) (lb : Option Nat) (hlen : s.length < 10 ^ 18) :
    decodeString ⟨decimalText s.length ++ 58 :: (s ++ rest), lb⟩
      = .ret ((s, none), ⟨rest, (58 :: s).getLast?⟩) := by
  obtain ⟨d, ds, hd⟩ := List.exists_cons_of_ne_nil (decimalText_ne_nil s.length)
  have hdig := decimalText_isDigit s.length
  have hval := digitsValue_decimalText s.length
  rw [hd] at hdig hval
  unfold decodeString
  rw [hd, List.cons_append, readDecimal_pos_run d ds 58 (s ++ rest) lb
    (hdig d (List.mem_cons_self _ _)) (fun x hx => hdig x (List.mem_cons_of_mem _ hx))
    isDigit_colon, hval, wrapInt_natCast _ (by omega)]
  have hlen0 : ¬ ((((d :: ds).length : Nat) : Int) = 0) := by
    simp only [List.length_cons]
    omega
  simp only [hlen0, if_false, Reader.ReadByte, ne_eq, not_true_eq_false]
  have hneg : ¬ ((s.length : Int) < 0) := by omega
  simp only [hneg, if_false, Reader.ReadAtLeast, Int.toNat_ofNat, List.take_left',
    List.drop_left', List.length_take, List.length_append]
  have h1 : min s.length (s.length + rest.length) = s.length := by omega
  simp only [h1, Nat.sub_self, List.replicate_zero, List.append_nil, le_refl, if_true]
  congr 3
  cases hs : s.getLast? with
  | none =>
    have : s = [] := List.getLast?_eq_none_iff.mp hs
    subst this
    rfl
  | some c =>
    rw [List.getLast?_cons, hs]
    rfl

theorem intText_nonneg (n : Int) (h : 0 ≤ n) : intText n = decimalText n.toNat := by
  unfold intText
  rw [if_neg (by omega)]

theorem intText_neg (n : Int) (h : n < 0) : intText n = 45 :: decimalText (-n).toNat := by
  unfold intText
  rw [if_pos h]

/-- `decodeInt` on the wire format of an integer strictly between `-10^18` and `10^18`
returns the integer with no error and leaves the reader behind the `'e'`. -/
theorem decodeInt_wire (n : Int) (rest : List Nat) (lb : Option Nat)
    (hlo : -(10 ^ 18) < n) (hhi : n < 10 ^ 18) :
    decodeInt ⟨105 :: (intText n ++ 101 :: rest), lb⟩ = ((n, none), ⟨rest, some 101⟩) := by
  by_cases hneg : n < 0
  · have hb : (-n).toNat < 10 ^ 18 := by omega
    rw [intText_neg n hneg, List.cons_append,
      decodeInt_neg_digits _ rest lb (decimalText_ne_nil _) (decimalText_length_le _ hb)
        (decimalText_isDigit _), digitsValue_decimalText]
    congr 2
    omega
  · have hb : n.toNat < 10 ^ 18 := by omega
    rw [intText_nonneg n (by omega),
      decodeInt_digits _ rest lb (decimalText_ne_nil _) (decimalText_length_le _ hb)
        (decimalText_isDigit _), digitsValue_decimalText]
    congr 2
    omega

theorem Outcome.bind_assoc {α β γ : Type} (o : Outcome α) (f : α → Outcome β)
    (g : β → Outcome γ) : (o.bind f).bind g = o.bind fun a => (f a).bind g := by
  cases o <;> rfl

theorem Outcome.ret_bind {α β : Type} (a : α) (f : α → Outcome β) :
    (Outcome.ret a).bind f = f a := rfl

/-- The value part of an iteration of the loop of `decodeMap`, written with `decodeOne`. -/
theorem decodeMap_loop_eq (fuel : Nat) (err0 : Option Error) (br : Reader)
    (dict : List (List Nat × Value)) :
    decodeMap.loop (fuel + 1) err0 br dict =
      if br.ReadByte.1 = 101 then
        .ret ((dict, err0), br.ReadByte.2.2.UnreadByte.ReadByte.2.2)
      else
        (decodeString br.ReadByte.2.2.UnreadByte).bind fun r =>
          if r.1.2 ≠ none then .ret ((dict, r.1.2), r.2)
          else (decodeOne fuel r.2).bind fun q =>
            if q.1.2 ≠ none then .ret ((dict, q.1.2), q.2)
            else decodeMap.loop fuel err0 q.2 (mapAssign r.1.1 q.1.1 dict) := by
  rw [decodeMap.loop]
  simp only []
  split
  · rfl
  · congr 1
    funext r
    obtain ⟨⟨key, err⟩, br2⟩ := r
    simp only []
    split
    · rfl
    · unfold decodeOne
      simp only []
      split
      · rfl
      · split
        · rw [Outcome.bind_assoc]
          rfl
        · split
          · rw [Outcome.bind_assoc]
            rfl
          · split
            · rw [Outcome.bind_assoc]
              rfl
            · simp [Outcome.bind]

/-- An iteration of the loop of `BencodeDecodeFromReader` on an input that is not at its
end, written with `decodeOne`. -/
theorem topLoop_eq (fuel : Nat) (c : Nat) (cs : List Nat) (lb : Option Nat)
    (objs : List Value) :
    BencodeDecodeFromReader.loop (fuel + 1) ⟨c :: cs, lb⟩ objs =
      (decodeOne fuel ⟨c :: cs, lb⟩).bind fun q =>
        if q.1.2 ≠ none then .ret ((objs, q.1.2), q.2)
        else BencodeDecodeFromReader.loop fuel q.2 (objs ++ [q.1.1]) := by
  rw [BencodeDecodeFromReader.loop]
  unfold decodeOne
  simp only [Reader.ReadByte, ne_eq, not_true_eq_false, if_false]
  split
  · rfl
  · split
    · rw [Outcome.bind_assoc]
      rfl
    · split
      · rw [Outcome.bind_assoc]
        rfl
      · split
        · rw [Outcome.bind_assoc]
          rfl
        · simp [Outcome.bind]

/-- An iteration of the loop of `decodeSlice` when the peeked byte is neither `'d'` nor
`'e'`, written with `decodeOne`. -/
theorem decodeSlice_loop_eq (fuel : Nat) (err0 : Option Error) (br : Reader)
    (arr : List Value) (hd : br.ReadByte.1 ≠ 100) (he : br.ReadByte.1 ≠ 101) :
    decodeSlice.loop (fuel + 1) err0 br arr =
      (decodeOne fuel br).bind fun q =>
        if q.1.2 ≠ none then .ret ((arr, q.1.2), q.2)
        else decodeSlice.loop fuel err0 q.2 (arr ++ [q.1.1]) := by
  rw [decodeSlice.loop]
  unfold decodeOne
  simp only []
  split
  · rfl
  · split
    · rw [Outcome.bind_assoc]
      rfl
    · split
      · rw [Outcome.bind_assoc]
        rfl
      · simp [Outcome.bind]

theorem ReadByte_cons (c : Nat) (cs : List Nat) (lb : Option Nat) :
    Reader.ReadByte ⟨c :: cs, lb⟩ = (c, none, ⟨cs, some c⟩) := rfl

theorem peek_cons (c : Nat) (cs : List Nat) (lb : Option Nat) :
    (Reader.ReadByte ⟨c :: cs, lb⟩).2.2.UnreadByte = ⟨c :: cs, none⟩ := rfl

/-- The loop of `decodeMap` on a sequence of entries, each a key in the wire format of a
byte string followed by bytes `t.2.1` that `decodeOne` decodes to the value `t.2.2`,
and then `'e'`: the entries are assigned to the map in the order of the input. -/
theorem decodeMap_loop_entries : ∀ (T : List (List Nat × List Nat × Value)),
    (∀ t ∈ T, t.1.length < 10 ^ 18 ∧ ∀ (fuel : Nat) (rest : List Nat) (lb : Option Nat),
      t.2.1.length ≤ fuel →
      ∃ lb', decodeOne fuel ⟨t.2.1 ++ rest, lb⟩ = .ret ((t.2.2, none), ⟨rest, lb'⟩)) →
    ∀ (fuel : Nat) (err0 : Option Error) (rest : List Nat) (lb : Option Nat)
      (dict : List (List Nat × Value)),
    (wireEntries (T.map fun t => (t.1, t.2.1))).length + 1 ≤ fuel →
    decodeMap.loop fuel err0 ⟨wireEntries (T.map fun t => (t.1, t.2.1)) ++ 101 :: rest, lb⟩ dict
      = .ret ((T.foldl (fun d t => mapAssign t.1 t.2.2 d) dict, err0), ⟨rest, some 101⟩)
  | [], _, fuel, err0, rest, lb, dict, hf => by
    obtain ⟨f, rfl⟩ : ∃ f, fuel = f + 1 := ⟨fuel - 1, by omega⟩
    rw [decodeMap_loop_eq]
    simp only [List.map_nil, wireEntries, List.nil_append, ReadByte_cons, if_true,
      List.foldl_nil]
    rfl
  | (k, vb, v) :: T, hT, fuel, err0, rest, lb, dict, hf => by
    obtain ⟨f, rfl⟩ : ∃ f, fuel = f + 1 := ⟨fuel - 1, by omega⟩
    obtain ⟨hk, hv⟩ := hT (k, vb, v) (List.mem_cons_self _ _)
    simp only at hk hv
    obtain ⟨d, ds, hd⟩ := List.exists_cons_of_ne_nil (decimalText_ne_nil k.length)
    have hdd : isDigit d = true := by
      have := decimalText_isDigit k.length d
      rw [hd] at this
      exact this (List.mem_cons_self _ _)
    have hd101 : d ≠ 101 := by
      have := (isDigit_iff d).mp hdd
      omega
    simp only [List.map_cons, wireEntries, List.length_append, List.length_cons] at hf ⊢
    have hshape : (decimalText k.length ++ 58 :: k ++ vb ++
        wireEntries (List.map (fun t => (t.1, t.2.1)) T)) ++ 101 :: rest
        = decimalText k.length ++ 58 :: (k ++ (vb ++
          (wireEntries (List.map (fun t => (t.1, t.2.1)) T) ++ 101 :: rest))) := by
      simp [List.append_assoc]
    rw [hshape, decodeMap_loop_eq]
    have hpeek : (Reader.ReadByte ⟨decimalText k.length ++ 58 :: (k ++ (vb ++
          (wireEntries (List.map (fun t => (t.1, t.2.1)) T) ++ 101 :: rest))), lb⟩).1 = d := by
      rw [hd]; rfl
    have hpeek2 : (Reader.ReadByte ⟨decimalText k.length ++ 58 :: (k ++ (vb ++
          (wireEntries (List.map (fun t => (t.1, t.2.1)) T) ++ 101 :: rest))), lb⟩).2.2.UnreadByte
        = ⟨decimalText k.length ++ 58 :: (k ++ (vb ++
          (wireEntries (List.map (fun t => (t.1, t.2.1)) T) ++ 101 :: rest))), none⟩ := by
      rw [hd]; rfl
    rw [hpeek, if_neg hd101, hpeek2, decodeString_wire k _ none hk]
    simp only [Outcome.ret_bind, ne_eq, not_true_eq_false, if_false]
    obtain ⟨lb', hdec⟩ := hv f (wireEntries (List.map (fun t => (t.1, t.2.1)) T) ++ 101 :: rest)
      ((58 :: k).getLast?) (by omega)
    rw [hdec]
    simp only [Outcome.ret_bind, ne_eq, not_true_eq_false, if_false, List.foldl_cons]
    have hklen : 2 ≤ (decimalText k.length).length + (k.length + 1) := by
      have := List.length_pos.mpr (decimalText_ne_nil k.length)
      omega
    exact decodeMap_loop_entries T (fun t ht => hT t (List.mem_cons_of_mem _ ht)) f err0 rest
      lb' (mapAssign k v dict) (by omega)

/-- The loop of `decodeSlice` on a sequence of elements, each given by bytes `p.1` that
start with neither `'d'` nor `'e'` and that `decodeOne` decodes to the value `p.2`, and
then `'e'`: the values are appended in the order of the input. -/
theorem decodeSlice_loop_elements : ∀ (S : List (List Nat × Value)),
    (∀ p ∈ S, (∃ c tl, p.1 = c :: tl ∧ c ≠ 100 ∧ c ≠ 101) ∧
      ∀ (fuel : Nat) (rest : List Nat) (lb : Option Nat), p.1.length ≤ fuel →
      ∃ lb', decodeOne fuel ⟨p.1 ++ rest, lb⟩ = .ret ((p.2, none), ⟨rest, lb'⟩)) →
    ∀ (fuel : Nat) (err0 : Option Error) (rest : List Nat) (lb : Option Nat)
      (arr : List Value),
    (S.map Prod.fst).flatten.length + 1 ≤ fuel →
    decodeSlice.loop fuel err0 ⟨(S.map Prod.fst).flatten ++ 101 :: rest, lb⟩ arr
      = .ret ((arr ++ S.map Prod.snd, err0), ⟨rest, some 101⟩)
  | [], _, fuel, err0, rest, lb, arr, hf => by
    obtain ⟨f, rfl⟩ : ∃ f, fuel = f + 1 := ⟨fuel - 1, by omega⟩
    rw [decodeSlice.loop]
    simp [Reader.ReadByte, Reader.UnreadByte]
  | (b, v) :: S, hS, fuel, err0, rest, lb, arr, hf => by
    obtain ⟨f, rfl⟩ : ∃ f, fuel = f + 1 := ⟨fuel - 1, by omega⟩
    obtain ⟨⟨c, tl, hb, hc100, hc101⟩, hv⟩ := hS (b, v) (List.mem_cons_self _ _)
    simp only at hb hv
    simp only [List.map_cons, List.flatten_cons, List.length_append] at hf ⊢
    rw [List.append_assoc]
    have hpeek : (Reader.ReadByte ⟨b ++ ((List.map Prod.fst S).flatten ++ 101 :: rest), lb⟩).1
        = c := by
      rw [hb]; rfl
    rw [decodeSlice_loop_eq f err0 _ arr (by rw [hpeek]; exact hc100)
      (by rw [hpeek]; exact hc101)]
    obtain ⟨lb', hdec⟩ := hv f ((List.map Prod.fst S).flatten ++ 101 :: rest) lb (by omega)
    rw [hdec]
    simp only [Outcome.ret_bind, ne_eq, not_true_eq_false, if_false]
    have hblen : 1 ≤ b.length := by rw [hb]; simp
    rw [decodeSlice_loop_elements S (fun p hp => hS p (List.mem_cons_of_mem _ hp)) f err0 rest
      lb' (arr ++ [v]) (by omega)]
    simp

theorem mapIndex_map_snd {α β : Type} (f : α → β) (k : List Nat) :
    ∀ (m : List (List Nat × α)),
      mapIndex k (m.map fun p => (p.1, f p.2)) = (mapIndex k m).map f
  | [] => rfl
  | (k', v) :: rest => by
    by_cases h : k = k'
    · simp [mapIndex, h]
    · simp [mapIndex, h, mapIndex_map_snd f k rest]

theorem mapIndex_some_mem {α : Type} (k : List Nat) (v : α) :
    ∀ (m : List (List Nat × α)), mapIndex k m = some v → (k, v) ∈ m
  | [], h => by simp [mapIndex] at h
  | (k', v') :: rest, h => by
    rw [mapIndex] at h
    split at h
    · next hk =>
      simp only [Option.some.injEq] at h
      rw [hk, h]
      exact List.mem_cons_self _ _
    · exact List.mem_cons_of_mem _ (mapIndex_some_mem k v rest h)

theorem mapIndex_isSome_of_mem_keys {α : Type} (k : List Nat) :
    ∀ (m : List (List Nat × α)), k ∈ m.map Prod.fst → ∃ v, mapIndex k m = some v
  | [], h => by simp at h
  | (k', v') :: rest, h => by
    by_cases hk : k = k'
    · exact ⟨v', by simp [mapIndex, hk]⟩
    · have : k ∈ rest.map Prod.fst := by
        simp only [List.map_cons, List.mem_cons] at h
        rcases h with h | h
        · exact absurd h hk
        · exact h
      obtain ⟨v, hv⟩ := mapIndex_isSome_of_mem_keys k rest this
      exact ⟨v, by simp [mapIndex, hk, hv]⟩

theorem mapReorder_nil {α : Type} (m : List (List Nat × α)) : mapReorder [] m = [] := rfl

theorem mapReorder_cons_some {α : Type} (k : List Nat) (ks : List (List Nat))
    (m : List (List Nat × α)) (v : α) (h : mapIndex k m = some v) :
    mapReorder (k :: ks) m = (k, v) :: mapReorder ks m := by
  simp [mapReorder, List.filterMap_cons, h]

theorem mapReorder_cons_none {α : Type} (k : List Nat) (ks : List (List Nat))
    (m : List (List Nat × α)) (h : mapIndex k m = none) :
    mapReorder (k :: ks) m = mapReorder ks m := by
  simp [mapReorder, List.filterMap_cons, h]

theorem mapReorder_map_snd {α β : Type} (f : α → β) (m : List (List Nat × α)) :
    ∀ (ks : List (List Nat)),
      mapReorder ks (m.map fun p => (p.1, f p.2))
        = (mapReorder ks m).map fun p => (p.1, f p.2)
  | [] => rfl
  | k :: ks => by
    cases h : mapIndex k m with
    | none =>
      rw [mapReorder_cons_none k ks m h,
        mapReorder_cons_none k ks _ (by rw [mapIndex_map_snd, h]; rfl),
        mapReorder_map_snd f m ks]
    | some v =>
      rw [mapReorder_cons_some k ks m v h,
        mapReorder_cons_some k ks _ (f v) (by rw [mapIndex_map_snd, h]; rfl),
        mapReorder_map_snd f m ks]
      rfl

theorem mapReorder_mem {α : Type} (m : List (List Nat × α)) :
    ∀ (ks : List (List Nat)) (p : List Nat × α), p ∈ mapReorder ks m → p ∈ m ∧ p.1 ∈ ks
  | [], p, h => by simp [mapReorder] at h
  | k :: ks, p, h => by
    cases hk : mapIndex k m with
    | none =>
      rw [mapReorder_cons_none k ks m hk] at h
      obtain ⟨h1, h2⟩ := mapReorder_mem m ks p h
      exact ⟨h1, List.mem_cons_of_mem _ h2⟩
    | some v =>
      rw [mapReorder_cons_some k ks m v hk] at h
      rcases List.mem_cons.mp h with rfl | h'
      · exact ⟨mapIndex_some_mem k v m hk, List.mem_cons_self _ _⟩
      · obtain ⟨h1, h2⟩ := mapReorder_mem m ks p h'
        exact ⟨h1, List.mem_cons_of_mem _ h2⟩

theorem mapReorder_keys {α : Type} (m : List (List Nat × α)) :
    ∀ (ks : List (List Nat)), (∀ k ∈ ks, k ∈ m.map Prod.fst) →
      (mapReorder ks m).map Prod.fst = ks
  | [], _ => rfl
  | k :: ks, h => by
    obtain ⟨v, hv⟩ := mapIndex_isSome_of_mem_keys k m (h k (List.mem_cons_self _ _))
    rw [mapReorder_cons_some k ks m v hv, List.map_cons,
      mapReorder_keys m ks (fun k' hk' => h k' (List.mem_cons_of_mem _ hk'))]

/-- Looking a key up in the reordered map is looking it up in the map, when every key of
the map is among `ks`. -/
theorem mapIndex_mapReorder {α : Type} (m : List (List Nat × α)) (k : List Nat) :
    ∀ (ks : List (List Nat)),
      mapIndex k (mapReorder ks m) = if k ∈ ks then mapIndex k m else none
  | [] => by simp [mapReorder, mapIndex]
  | k' :: ks => by
    have ih := mapIndex_mapReorder m k ks
    cases hk : mapIndex k' m with
    | none =>
      rw [mapReorder_cons_none k' ks m hk, ih]
      by_cases hkk : k = k'
      · subst hkk
        simp [hk]
      · simp [hkk]
    | some v =>
      rw [mapReorder_cons_some k' ks m v hk]
      by_cases hkk : k = k'
      · subst hkk
        simp [mapIndex, hk]
      · simp [mapIndex, hkk, ih]

/-- The canonical listing of a dictionary binds every key to the canonical listing of
the value that the dictionary binds it to: the content is the same. -/
theorem mapIndex_canonDict (m : List (List Nat × Value)) (k : List Nat) :
    mapIndex k (mapReorder (sortStrings (m.map Prod.fst)) (Value.canonValues m))
      = (mapIndex k m).map Value.canon := by
  rw [mapIndex_mapReorder, canonValues_eq, mapIndex_map_snd]
  split
  · rfl
  · next h =>
    have hk : k ∉ m.map Prod.fst := fun hmem => h ((sortStrings_perm _).symm.subset hmem)
    rw [mapIndex_eq_none m k hk]
    rfl

/-! ### The encoder on the supported values -/

theorem encodeInt_fragment (fuel : Nat) (n : Int) (hlo : -(10 ^ 18) < n) (hhi : n < 10 ^ 18)
    (hf : 19 ≤ fuel) : ∃ c, encodeInt fuel n = .ret (Value.wire (.int n), c) := by
  by_cases hn : 0 ≤ n
  · obtain ⟨k, rfl⟩ := Int.eq_ofNat_of_zero_le hn
    have hk : k < 10 ^ 18 := by exact_mod_cast hhi
    rw [encodeInt, writeDecimal_natCast fuel k hk hf, Value.wire, intText_nonneg _ hn]
    exact ⟨_, rfl⟩
  · have hneg : n < 0 := by omega
    obtain ⟨k, hk⟩ := Int.eq_ofNat_of_zero_le (show 0 ≤ -n by omega)
    have hnk : n = -(k : Int) := by omega
    subst hnk
    have hk18 : k < 10 ^ 18 := by
      have : (k : Int) < 10 ^ 18 := by omega
      exact_mod_cast this
    have hkpos : 0 < k := by omega
    rw [encodeInt, writeDecimal_neg fuel k hkpos hk18 hf, Value.wire, intText_neg _ hneg]
    simp only [neg_neg, Int.toNat_ofNat]
    exact ⟨_, rfl⟩

theorem encodeString_fragment (fuel : Nat) (s : List Nat) (hlen : s.length < 10 ^ 18)
    (hf : 19 ≤ fuel) : ∃ c, encodeString fuel s = .ret (decimalText s.length ++ 58 :: s, c) := by
  rw [encodeString]
  simp only [writeDecimal_natCast fuel s.length hlen hf]
  exact ⟨((decimalText s.length).length : Int) + 1 + s.length, by simp [Outcome.bind]⟩

theorem encodeSlice_loop_fragment (fuel : Nat) : ∀ (xs : List Value),
    (∀ x ∈ xs, ∃ c, encodeElement fuel x = .ret (Value.wire x, c)) →
    ∃ c, encodeSlice.loop fuel xs = .ret (Value.wireList xs, c)
  | [], _ => ⟨0, by simp [encodeSlice.loop, Value.wireList]⟩
  | x :: xs, h => by
    obtain ⟨c1, h1⟩ := h x (List.mem_cons_self _ _)
    obtain ⟨c2, h2⟩ := encodeSlice_loop_fragment fuel xs
      (fun y hy => h y (List.mem_cons_of_mem _ hy))
    exact ⟨c1 + c2, by simp [encodeSlice.loop, Value.wireList, h1, h2, Outcome.bind]⟩

theorem encodeMap_keysLoop_fragment (fuel : Nat) (hf : 19 ≤ fuel) (m : List (List Nat × Value))
    (hm : ∀ p ∈ m, p.1.length < 10 ^ 18 ∧ ∃ c, encodeElement fuel p.2 = .ret (Value.wire p.2, c)) :
    ∀ (ks : List (List Nat)), (∀ k ∈ ks, k ∈ m.map Prod.fst) →
    ∃ c, encodeMap.keysLoop fuel (encodeMap.values fuel m) ks
      = .ret (wireEntries (mapReorder ks (Value.wireValues m)), c)
  | [], _ => ⟨0, by simp [encodeMap.keysLoop, mapReorder, wireEntries]⟩
  | k :: ks, h => by
    obtain ⟨v, hv⟩ := mapIndex_isSome_of_mem_keys k m (h k (List.mem_cons_self _ _))
    have hmem := mapIndex_some_mem k v m hv
    obtain ⟨hklen, cv, hev⟩ := hm (k, v) hmem
    obtain ⟨ck, hek⟩ := encodeString_fragment fuel k hklen hf
    obtain ⟨cr, her⟩ := encodeMap_keysLoop_fragment fuel hf m hm ks
      (fun k' hk' => h k' (List.mem_cons_of_mem _ hk'))
    have hw : mapIndex k (Value.wireValues m) = some (Value.wire v) := by
      rw [wireValues_eq, mapIndex_map_snd, hv]
      rfl
    refine ⟨ck + cv + cr, ?_⟩
    rw [encodeMap.keysLoop, hek, mapIndex_values, hv, mapReorder_cons_some k ks _ _ hw]
    simp only at hev
    simp [Outcome.bind, hev, her, wireEntries]

/-- On a supported value the encoder emits the wire format of the specification. -/
theorem encodeElement_fragment (fuel : Nat) (hf : 19 ≤ fuel) (v : Value) :
    v.supported = true → ∃ c, encodeElement fuel v = .ret (v.wire, c) := by
  refine Value.induction (fun v => v.supported = true →
    ∃ c, encodeElement fuel v = .ret (v.wire, c)) ?_ ?_ ?_ ?_ v
  · intro n hs
    simp only [Value.supported, Bool.and_eq_true, decide_eq_true_eq] at hs
    rw [encodeElement]
    exact encodeInt_fragment fuel n hs.1 hs.2 hf
  · intro s hs
    simp only [Value.supported, decide_eq_true_eq] at hs
    rw [encodeElement, Value.wire]
    exact encodeString_fragment fuel s hs hf
  · intro xs ih hs
    rw [Value.supported, supportedList_iff] at hs
    obtain ⟨c, hc⟩ := encodeSlice_loop_fragment fuel xs (fun x hx => ih x hx (hs x hx).2)
    rw [encodeElement, hc, Value.wire]
    exact ⟨_, rfl⟩
  · intro m ih hs
    simp only [Value.supported, Bool.and_eq_true, decide_eq_true_eq] at hs
    obtain ⟨_, hs⟩ := hs
    rw [supportedValues_iff] at hs
    obtain ⟨c, hc⟩ := encodeMap_keysLoop_fragment fuel hf m
      (fun p hp => ⟨(hs p hp).1, ih p hp (hs p hp).2⟩) (sortStrings (m.map Prod.fst))
      (fun k hk => (sortStrings_perm _).subset hk)
    rw [encodeElement, encodeMap.frame, hc, Value.wire]
    exact ⟨_, rfl⟩

/-! ### The decoder on the wire format of the supported values -/

theorem mapAssign_fresh (k : List Nat) (v : Value) : ∀ (acc : List (List Nat × Value)),
    k ∉ acc.map Prod.fst → mapAssign k v acc = acc ++ [(k, v)]
  | [], _ => rfl
  | (k', v') :: acc, h => by
    have hne : k ≠ k' := fun e => h (by simp [e])
    have hrest : k ∉ acc.map Prod.fst := fun hm => h (by simp [List.mem_map] at hm ⊢; exact Or.inr hm)
    simp [mapAssign, hne, mapAssign_fresh k v acc hrest]

theorem foldl_mapAssign_fresh : ∀ (L acc : List (List Nat × Value)),
    ((acc ++ L).map Prod.fst).Nodup →
    L.foldl (fun d p => mapAssign p.1 p.2 d) acc = acc ++ L
  | [], acc, _ => by simp
  | (k, v) :: L, acc, h => by
    have hk : k ∉ acc.map Prod.fst := by
      intro hm
      rw [List.map_append, List.nodup_append] at h
      exact h.2.2 hm (by simp)
    rw [List.foldl_cons, mapAssign_fresh k v acc hk,
      foldl_mapAssign_fresh L (acc ++ [(k, v)]) (by simpa using h)]
    simp

theorem wire_head_of_not_dict (v : Value) (h : v.isDict = false) :
    ∃ c tl, v.wire = c :: tl ∧ c ≠ 100 ∧ c ≠ 101 := by
  cases v with
  | int n => exact ⟨105, _, by rw [Value.wire]; rfl, by decide, by decide⟩
  | str s =>
    obtain ⟨d, ds, hd⟩ := List.exists_cons_of_ne_nil (decimalText_ne_nil s.length)
    have hdd : isDigit d = true := by
      have := decimalText_isDigit s.length d
      rw [hd] at this
      exact this (List.mem_cons_self _ _)
    have := (isDigit_iff d).mp hdd
    exact ⟨d, ds ++ 58 :: s, by rw [Value.wire, hd]; rfl, by omega, by omega⟩
  | list xs => exact ⟨108, _, by rw [Value.wire]; rfl, by decide, by decide⟩
  | dict m => simp [Value.isDict] at h

theorem decodeOne_int (fuel : Nat) (n : Int) (rest : List Nat) (lb : Option Nat)
    (hlo : -(10 ^ 18) < n) (hhi : n < 10 ^ 18) :
    decodeOne fuel ⟨Value.wire (.int n) ++ rest, lb⟩
      = .ret ((.int n, none), ⟨rest, some 101⟩) := by
  have hshape : Value.wire (.int n) ++ rest = 105 :: (intText n ++ 101 :: rest) := by
    simp [Value.wire]
  rw [hshape, decodeOne]
  simp only [ReadByte_cons, Reader.UnreadByte, if_true, decodeInt_wire n rest none hlo hhi]

theorem decodeOne_str (fuel : Nat) (s rest : List Nat) (lb : Option Nat)
    (hlen : s.length < 10 ^ 18) :
    decodeOne fuel ⟨Value.wire (.str s) ++ rest, lb⟩
      = .ret ((.str s, none), ⟨rest, (58 :: s).getLast?⟩) := by
  obtain ⟨d, ds, hd⟩ := List.exists_cons_of_ne_nil (decimalText_ne_nil s.length)
  have hdd : isDigit d = true := by
    have := decimalText_isDigit s.length d
    rw [hd] at this
    exact this (List.mem_cons_self _ _)
  have hr := (isDigit_iff d).mp hdd
  have hdec := decodeString_wire s rest none hlen
  have hshape : Value.wire (.str s) ++ rest = d :: (ds ++ 58 :: (s ++ rest)) := by
    simp [Value.wire, hd]
  rw [hd, List.cons_append] at hdec
  rw [hshape, decodeOne]
  simp only [ReadByte_cons, Reader.UnreadByte]
  rw [if_neg (by omega), if_pos hr, hdec]
  rfl

theorem decodeOne_list (fuel : Nat) (xs : List Value) (rest : List Nat) (lb : Option Nat)
    (hxs : ∀ x ∈ xs, x.isDict = false ∧
      ∀ (fuel : Nat) (rest : List Nat) (lb : Option Nat), x.wire.length ≤ fuel →
        ∃ lb', decodeOne fuel ⟨x.wire ++ rest, lb⟩ = .ret ((x.canon, none), ⟨rest, lb'⟩))
    (hf : (Value.wire (.list xs)).length ≤ fuel) :
    decodeOne fuel ⟨Value.wire (.list xs) ++ rest, lb⟩
      = .ret ((Value.canon (.list xs), none), ⟨rest, some 101⟩) := by
  have hshape : Value.wire (.list xs) ++ rest = 108 :: (Value.wireList xs ++ 101 :: rest) := by
    simp [Value.wire]
  have hlen : (Value.wire (.list xs)).length = (Value.wireList xs).length + 2 := by
    simp [Value.wire]
  obtain ⟨f, rfl⟩ : ∃ f, fuel = f + 1 := ⟨fuel - 1, by omega⟩
  have hS : (List.map Prod.fst (xs.map fun x => (x.wire, x.canon))).flatten
      = Value.wireList xs := by
    rw [wireList_eq, List.map_map]
    rfl
  have hloop := decodeSlice_loop_elements (xs.map fun x => (x.wire, x.canon))
    (by
      intro p hp
      obtain ⟨x, hx, rfl⟩ := List.mem_map.mp hp
      exact ⟨wire_head_of_not_dict x (hxs x hx).1, (hxs x hx).2⟩)
    f none rest (some 108) [] (by rw [hS]; omega)
  rw [hS] at hloop
  rw [hshape, decodeOne]
  simp only [ReadByte_cons, Reader.UnreadByte]
  rw [if_neg (by decide), if_neg (by decide), if_pos trivial, decodeSlice]
  simp only [ReadByte_cons, ne_eq, not_true_eq_false, if_false, hloop, Outcome.ret_bind,
    List.nil_append, List.map_map, Value.canon, canonList_eq]
  rfl

theorem decodeOne_dict (fuel : Nat) (m : List (List Nat × Value)) (rest : List Nat)
    (lb : Option Nat) (hnd : (m.map Prod.fst).Nodup)
    (hm : ∀ p ∈ m, p.1.length < 10 ^ 18 ∧
      ∀ (fuel : Nat) (rest : List Nat) (lb : Option Nat), p.2.wire.length ≤ fuel →
        ∃ lb', decodeOne fuel ⟨p.2.wire ++ rest, lb⟩ = .ret ((p.2.canon, none), ⟨rest, lb'⟩))
    (hf : (Value.wire (.dict m)).length ≤ fuel) :
    decodeOne fuel ⟨Value.wire (.dict m) ++ rest, lb⟩
      = .ret ((Value.canon (.dict m), none), ⟨rest, some 101⟩) := by
  have hshape : Value.wire (.dict m) ++ rest
      = 100 :: (wireEntries (mapReorder (sortStrings (m.map Prod.fst)) (Value.wireValues m))
          ++ 101 :: rest) := by
    simp [Value.wire]
  have hlen : (Value.wire (.dict m)).length
      = (wireEntries (mapReorder (sortStrings (m.map Prod.fst)) (Value.wireValues m))).length
          + 2 := by
    simp [Value.wire]
  obtain ⟨f, rfl⟩ : ∃ f, fuel = f + 1 := ⟨fuel - 1, by omega⟩
  have hT : List.map (fun t : List Nat × List Nat × Value => (t.1, t.2.1))
      ((mapReorder (sortStrings (m.map Prod.fst)) m).map fun p => (p.1, p.2.wire, p.2.canon))
      = mapReorder (sortStrings (m.map Prod.fst)) (Value.wireValues m) := by
    rw [wireValues_eq, mapReorder_map_snd, List.map_map]
    rfl
  have hloop := decodeMap_loop_entries
    ((mapReorder (sortStrings (m.map Prod.fst)) m).map fun p => (p.1, p.2.wire, p.2.canon))
    (by
      intro t ht
      obtain ⟨p, hp, rfl⟩ := List.mem_map.mp ht
      exact hm p (mapReorder_mem m _ p hp).1)
    f none rest (some 100) [] (by rw [hT]; omega)
  rw [hT] at hloop
  have hkeys : (List.map Prod.fst (mapReorder (sortStrings (m.map Prod.fst))
      (Value.canonValues m))) = sortStrings (m.map Prod.fst) := by
    apply mapReorder_keys
    intro k hk
    rw [canonValues_eq, List.map_map]
    exact (sortStrings_perm _).subset hk
  have hres : List.foldl (fun d (t : List Nat × List Nat × Value) => mapAssign t.1 t.2.2 d) []
      ((mapReorder (sortStrings (m.map Prod.fst)) m).map fun p => (p.1, p.2.wire, p.2.canon))
      = mapReorder (sortStrings (m.map Prod.fst)) (Value.canonValues m) := by
    rw [List.foldl_map]
    have h1 := foldl_mapAssign_fresh
      (mapReorder (sortStrings (m.map Prod.fst)) (Value.canonValues m)) []
      (by
        rw [List.nil_append, hkeys]
        exact (sortStrings_perm _).nodup_iff.mpr hnd)
    rw [List.nil_append] at h1
    rw [canonValues_eq, mapReorder_map_snd, List.foldl_map] at h1
    rw [canonValues_eq, mapReorder_map_snd]
    exact h1
  rw [hres] at hloop
  rw [hshape, decodeOne]
  simp only [ReadByte_cons, Reader.UnreadByte]
  rw [if_neg (by decide), if_neg (by decide), if_neg (by decide), if_pos trivial, decodeMap]
  simp only [ReadByte_cons, ne_eq, not_true_eq_false, if_false, hloop, Outcome.ret_bind,
    Value.canon]

/-- On the wire format of a supported value, followed by any bytes, the dispatch on the
first byte decodes the value, with every dictionary listed in key order, and stops right
after it. -/
theorem decodeOne_fragment (v : Value) : v.supported = true →
    ∀ (fuel : Nat) (rest : List Nat) (lb : Option Nat), v.wire.length ≤ fuel →
      ∃ lb', decodeOne fuel ⟨v.wire ++ rest, lb⟩ = .ret ((v.canon, none), ⟨rest, lb'⟩) := by
  refine Value.induction (fun v => v.supported = true →
    ∀ (fuel : Nat) (rest : List Nat) (lb : Option Nat), v.wire.length ≤ fuel →
      ∃ lb', decodeOne fuel ⟨v.wire ++ rest, lb⟩ = .ret ((v.canon, none), ⟨rest, lb'⟩))
    ?_ ?_ ?_ ?_ v
  · intro n hs fuel rest lb _
    simp only [Value.supported, Bool.and_eq_true, decide_eq_true_eq] at hs
    exact ⟨_, decodeOne_int fuel n rest lb hs.1 hs.2⟩
  · intro s hs fuel rest lb _
    simp only [Value.supported, decide_eq_true_eq] at hs
    exact ⟨_, decodeOne_str fuel s rest lb hs⟩
  · intro xs ih hs fuel rest lb hf
    rw [Value.supported, supportedList_iff] at hs
    exact ⟨_, decodeOne_list fuel xs rest lb
      (fun x hx => ⟨(hs x hx).1, ih x hx (hs x hx).2⟩) hf⟩
  · intro m ih hs fuel rest lb hf
    simp only [Value.supported, Bool.and_eq_true, decide_eq_true_eq] at hs
    obtain ⟨hnd, hs⟩ := hs
    rw [supportedValues_iff] at hs
    exact ⟨_, decodeOne_dict fuel m rest lb hnd
      (fun p hp => ⟨(hs p hp).1, ih p hp (hs p hp).2⟩) hf⟩

/-! ### A value and its canonical listing are the same Go value -/

theorem sameList_of_forall : ∀ (xs : List Value),
    (∀ x ∈ xs, Value.sameAs x x.canon = true) → Value.sameList xs (Value.canonList xs) = true
  | [], _ => by simp [Value.sameList, Value.canonList]
  | x :: xs, h => by
    simp [Value.sameList, Value.canonList, h x (List.mem_cons_self _ _),
      sameList_of_forall xs (fun y hy => h y (List.mem_cons_of_mem _ hy))]

theorem sameValues_of_forall (m' : List (List Nat × Value)) : ∀ (m : List (List Nat × Value)),
    (∀ p ∈ m, ∃ w, mapIndex p.1 m' = some w ∧ Value.sameAs p.2 w = true) →
    Value.sameValues m m' = true
  | [], _ => by simp [Value.sameValues]
  | (k, v) :: rest, h => by
    obtain ⟨w, hw, hs⟩ := h (k, v) (List.mem_cons_self _ _)
    simp only at hw hs
    simp [Value.sameValues, hw, hs,
      sameValues_of_forall m' rest (fun p hp => h p (List.mem_cons_of_mem _ hp))]

/-- A value whose maps have distinct keys is, as a Go value, the same as its canonical
listing. -/
theorem sameAs_canon (v : Value) : v.supported = true → v.sameAs v.canon = true := by
  refine Value.induction (fun v => v.supported = true → v.sameAs v.canon = true) ?_ ?_ ?_ ?_ v
  · intro n _
    simp [Value.sameAs, Value.canon]
  · intro s _
    simp [Value.sameAs, Value.canon]
  · intro xs ih hs
    rw [Value.supported, supportedList_iff] at hs
    simp only [Value.sameAs, Value.canon]
    exact sameList_of_forall xs (fun x hx => ih x hx (hs x hx).2)
  · intro m ih hs
    simp only [Value.supported, Bool.and_eq_true, decide_eq_true_eq] at hs
    obtain ⟨hnd, hs⟩ := hs
    rw [supportedValues_iff] at hs
    have hkeys : (List.map Prod.fst (mapReorder (sortStrings (m.map Prod.fst))
        (Value.canonValues m))) = sortStrings (m.map Prod.fst) := by
      apply mapReorder_keys
      intro k hk
      rw [canonValues_eq, List.map_map]
      exact (sortStrings_perm _).subset hk
    have hlen : m.length
        = (mapReorder (sortStrings (m.map Prod.fst)) (Value.canonValues m)).length := by
      have h1 := congrArg List.length hkeys
      rw [List.length_map, (sortStrings_perm _).length_eq, List.length_map] at h1
      exact h1.symm
    simp only [Value.sameAs, Value.canon, Bool.and_eq_true, decide_eq_true_eq]
    refine ⟨hlen, sameValues_of_forall _ m ?_⟩
    intro p hp
    refine ⟨p.2.canon, ?_, ih p hp (hs p hp).2⟩
    rw [mapIndex_canonDict, mapIndex_of_mem m p.1 p.2 hnd hp]
    rfl

theorem wire_ne_nil (v : Value) : v.wire ≠ [] := by
  cases v with
  | int n => simp [Value.wire]
  | str s => simp [Value.wire]
  | list xs => simp [Value.wire]
  | dict m => simp [Value.wire]

theorem topLoop_single (fuel : Nat) (bs : List Nat) (v : Value) (hbs : bs ≠ [])
    (hdec : ∃ lb', decodeOne (fuel + 1) ⟨bs ++ [], none⟩ = .ret ((v, none), ⟨[], lb'⟩)) :
    BencodeDecodeFromString (fuel + 2) bs = .ret ([v], none) := by
  obtain ⟨lb', hdec⟩ := hdec
  obtain ⟨c, cs, rfl⟩ := List.exists_cons_of_ne_nil hbs
  rw [List.append_nil] at hdec
  rw [BencodeDecodeFromString, BencodeDecodeFromReader, Reader.ofString, topLoop_eq, hdec]
  simp [Outcome.bind, BencodeDecodeFromReader.loop, Reader.ReadByte]

/-- Claim C19, self-delimiting round trip on the supported fragment: let `v` be a value in
which every integer lies strictly between `-10^18` and `10^18`, every string and key is
shorter than `10^18` bytes, no list has a dictionary as a direct element, and the keys of
each map are distinct. Then `BencodeEncode` returns the wire format of `v`; decoding one
value, by the codec that the first byte selects, from these bytes followed by any `rest`
returns `v` with no error and leaves the reader exactly at the start of `rest`; and
`BencodeDecodeFromString` on these bytes returns the one-element list of `v` and no
error. In the model the decoded value is `v.canon`, which lists every dictionary in
ascending key order: the listing order of a dictionary stands for the iteration order of
a Go map, and `v.canon` is the same Go value as `v` (`Value.sameAs`, dictionaries
compared by key/value content). -/
theorem roundtrip_supported (v : Value) (hv : v.supported = true) (fuel : Nat)
    (hf : 19 ≤ fuel) (hw : v.wire.length + 2 ≤ fuel) :
    BencodeEncode fuel v = .ret v.wire ∧
    (∀ (rest : List Nat) (lb : Option Nat), ∃ lb',
      decodeOne fuel ⟨v.wire ++ rest, lb⟩ = .ret ((v.canon, none), ⟨rest, lb'⟩)) ∧
    BencodeDecodeFromString fuel v.wire = .ret ([v.canon], none) ∧
    v.sameAs v.canon = true := by
  refine ⟨?_, ?_, ?_, sameAs_canon v hv⟩
  · obtain ⟨c, hc⟩ := encodeElement_fragment fuel hf v hv
    rw [BencodeEncode_eq_encodeElement, hc]
    rfl
  · intro rest lb
    exact decodeOne_fragment v hv fuel rest lb (by omega)
  · obtain ⟨f, rfl⟩ : ∃ f, fuel = f + 2 := ⟨fuel - 2, by omega⟩
    exact topLoop_single f v.wire v.canon (wire_ne_nil v)
      (decodeOne_fragment v hv (f + 1) [] none (by omega))

/-- The map `{"b": -7, "a": ["x", 0]}`, listed with `"b"` first: its encoding is
`"d1:al1:xi0ee1:bi-7ee"`, and decoding gives the map back, listed in key order. -/
theorem roundtrip_supported_witness :
    (Value.dict [([98], .int (-7)), ([97], .list [.str [120], .int 0])]).supported = true ∧
    19 ≤ 40 ∧
    (Value.dict [([98], .int (-7)), ([97], .list [.str [120], .int 0])]).wire.length + 2 ≤ 40 ∧
    BencodeEncode 40 (Value.dict [([98], .int (-7)), ([97], .list [.str [120], .int 0])])
      = .ret [100, 49, 58, 97, 108, 49, 58, 120, 105, 48, 101, 101, 49, 58, 98, 105, 45, 55,
          101, 101] ∧
    BencodeDecodeFromString 40
        [100, 49, 58, 97, 108, 49, 58, 120, 105, 48, 101, 101, 49, 58, 98, 105, 45, 55, 101, 101]
      = .ret ([Value.dict [([97], .list [.str [120], .int 0]), ([98], .int (-7))]], none) := by
  have hwire : (Value.dict [([98], .int (-7)), ([97], .list [.str [120], .int 0])]).wire
      = [100, 49, 58, 97, 108, 49, 58, 120, 105, 48, 101, 101, 49, 58, 98, 105, 45, 55, 101,
          101] := by
    simp [Value.wire, Value.wireList, Value.wireValues, wireEntries, mapReorder, sortStrings,
      mapIndex, decimalText, intText, strLess]
  have hcanon : (Value.dict [([98], .int (-7)), ([97], .list [.str [120], .int 0])]).canon
      = Value.dict [([97], .list [.str [120], .int 0]), ([98], .int (-7))] := by
    simp [Value.canon, Value.canonList, Value.canonValues, mapReorder, sortStrings, mapIndex,
      strLess]
  have hsup : (Value.dict [([98], .int (-7)), ([97], .list [.str [120], .int 0])]).supported
      = true := by
    simp [Value.supported, Value.supportedList, Value.supportedValues, Value.isDict]
  have h := roundtrip_supported
    (Value.dict [([98], .int (-7)), ([97], .list [.str [120], .int 0])]) hsup 40 (by decide)
    (by rw [hwire]; decide)
  rw [hwire, hcanon] at h
  exact ⟨hsup, by decide, by rw [hwire]; decide, h.1, h.2.2.1⟩

/-! ### Repeated and unsorted keys in a dictionary -/

theorem mapIndex_mapAssign (k k' : List Nat) (v : Value) : ∀ (d : List (List Nat × Value)),
    mapIndex k (mapAssign k' v d) = if k = k' then some v else mapIndex k d
  | [] => by simp [mapAssign, mapIndex]
  | (k0, v0) :: d => by
    have ih := mapIndex_mapAssign k k' v d
    by_cases h1 : k' = k0
    · subst h1
      by_cases h2 : k = k'
      · simp [mapAssign, mapIndex, h2]
      · simp [mapAssign, mapIndex, h2]
    · by_cases h2 : k = k0
      · subst h2
        have h3 : ¬ k = k' := fun e => h1 e.symm
        simp [mapAssign, mapIndex, h1, h3]
      · simp [mapAssign, mapIndex, h1, h2, ih]

theorem mapIndex_append {α : Type} (k : List Nat) : ∀ (a b : List (List Nat × α)),
    mapIndex k (a ++ b) = match mapIndex k a with
      | some v => some v
      | none => mapIndex k b
  | [], b => rfl
  | (k0, v0) :: a, b => by
    by_cases h : k = k0
    · simp [mapIndex, h]
    · simp [mapIndex, h, mapIndex_append k a b]

/-- Assigning a sequence of pairs in order binds each key to the value of its last
occurrence in the sequence; a key that does not occur keeps its value. -/
theorem mapIndex_foldl_mapAssign (k : List Nat) : ∀ (L acc : List (List Nat × Value)),
    mapIndex k (L.foldl (fun d p => mapAssign p.1 p.2 d) acc) = match mapIndex k L.reverse with
      | some v => some v
      | none => mapIndex k acc
  | [], acc => rfl
  | (k0, v0) :: L, acc => by
    rw [List.foldl_cons, mapIndex_foldl_mapAssign k L, List.reverse_cons, mapIndex_append,
      mapIndex_mapAssign]
    cases mapIndex k L.reverse with
    | some v => rfl
    | none =>
      by_cases h : k = k0
      · simp [mapIndex, h]
      · simp [mapIndex, h]

/-- Last write wins: on `'d'`, a sequence of entries in any order and with any
repetition of keys, and `'e'`, where each entry is a key in the wire format of a byte
string followed by bytes `t.2.1` that the dispatch on the first byte decodes to the value
`t.2.2`, `decodeMap` returns with no error and leaves the reader right after the `'e'`;
the map it returns binds each key to the value of its last occurrence in the input. -/
theorem decodeMap_last_write_wins (T : List (List Nat × List Nat × Value))
    (hT : ∀ t ∈ T, t.1.length < 10 ^ 18 ∧
      ∀ (fuel : Nat) (rest : List Nat) (lb : Option Nat), t.2.1.length ≤ fuel →
        ∃ lb', decodeOne fuel ⟨t.2.1 ++ rest, lb⟩ = .ret ((t.2.2, none), ⟨rest, lb'⟩))
    (fuel : Nat) (rest : List Nat) (lb : Option Nat)
    (hf : (wireEntries (T.map fun t => (t.1, t.2.1))).length + 2 ≤ fuel) :
    ∃ dict, decodeMap fuel ⟨100 :: (wireEntries (T.map fun t => (t.1, t.2.1)) ++ 101 :: rest), lb⟩
        = .ret ((dict, none), ⟨rest, some 101⟩) ∧
      ∀ k, mapIndex k dict = mapIndex k (T.reverse.map fun t => (t.1, t.2.2)) := by
  obtain ⟨f, rfl⟩ : ∃ f, fuel = f + 1 := ⟨fuel - 1, by omega⟩
  refine ⟨T.foldl (fun d t => mapAssign t.1 t.2.2 d) [], ?_, ?_⟩
  · rw [decodeMap]
    simp only [ReadByte_cons, ne_eq, not_true_eq_false, if_false]
    exact decodeMap_loop_entries T hT f none rest (some 100) [] (by omega)
  · intro k
    have h := mapIndex_foldl_mapAssign k (T.map fun t => (t.1, t.2.2)) []
    rw [List.foldl_map] at h
    rw [h, List.map_reverse]
    cases mapIndex k (List.map (fun t : List Nat × List Nat × Value => (t.1, t.2.2)) T).reverse with
    | some v => rfl
    | none => rfl

theorem decodeMap_value_list_of_dict (fuel : Nat) (k : Nat) (rest : List Nat) (lb : Option Nat) :
    decodeMap fuel ⟨100 :: 49 :: 58 :: k :: 108 :: 100 :: rest, lb⟩ = .outOfFuel := by
  cases fuel with
  | zero => rfl
  | succ n =>
    cases n with
    | zero => rfl
    | succ m =>
      rw [decodeMap]
      simp only [ReadByte_cons, ne_eq, not_true_eq_false, if_false]
      rw [decodeMap_loop_eq]
      have hkey : decodeString ⟨49 :: 58 :: k :: 108 :: 100 :: rest, none⟩
          = .ret (([k], none), ⟨108 :: 100 :: rest, some k⟩) := by
        have := decodeString_wire [k] (108 :: 100 :: rest) none (by norm_num)
        simpa [decimalText] using this
      simp only [ReadByte_cons, Reader.UnreadByte]
      rw [if_neg (by decide), hkey]
      simp only [Outcome.ret_bind, ne_eq, not_true_eq_false, if_false]
      rw [decodeOne]
      simp only [ReadByte_cons, Reader.UnreadByte]
      rw [if_neg (by decide), if_neg (by decide), if_pos trivial, decodeSlice_dict_element]
      rfl

/-- Claim C15, evaluated at a dictionary whose value is a list that holds a dictionary:
on `"d1:ai1e1:ai2ee"` `decodeMap` returns `{"a": 2}` and on the unsorted `"d1:bi1e1:ai2ee"`
it returns `{"b": 1, "a": 2}`, both with no error; but on the well-formed input
`"d1:aldeee"`, the dictionary `{"a": [{}]}`, `decodeMap` does not return for any fuel,
because the value is decoded by `decodeSlice`, whose `'d'` branch is empty. It does not
succeed on every well-formed dictionary. -/
theorem decodeMap_list_of_dict_value_never_returns :
    (∀ fuel, decodeMap (fuel + 4)
        (Reader.ofString [100, 49, 58, 97, 105, 49, 101, 49, 58, 97, 105, 50, 101, 101])
      = .ret (([([97], .int 2)], none), ⟨[], some 101⟩)) ∧
    (∀ fuel, decodeMap (fuel + 4)
        (Reader.ofString [100, 49, 58, 98, 105, 49, 101, 49, 58, 97, 105, 50, 101, 101])
      = .ret (([([98], .int 1), ([97], .int 2)], none), ⟨[], some 101⟩)) ∧
    (∀ fuel, decodeMap fuel (Reader.ofString [100, 49, 58, 97, 108, 100, 101, 101, 101])
      = .outOfFuel) :=
  ⟨fun _ => rfl, fun _ => rfl, fun fuel => decodeMap_value_list_of_dict fuel 97 [101, 101, 101] none⟩

end DgoBencode
